import Mathlib

/-
Verification of the deduplication engine and change logger of `json-dedupe`.

The development is a shallow embedding of `src/dedupe/engine.ts`,
`src/dedupe/models.ts` (the `LeadRecord` class) and `src/dedupe/logger.ts`
(the `ChangeLogger` class).

Modelling conventions:
* JavaScript objects are compared by reference in the engine (`Set`
  membership, `Array.prototype.indexOf`).  Each record therefore carries a
  `tag` field holding its position in the engine's record array; records
  handed to a fresh engine are tagged by list position (`tagRecords`), so
  structural equality of the embedded records coincides with JS reference
  equality.
* `JS Map`s preserve key insertion order; they are embedded as association
  lists where a write to a fresh key appends at the end (`indexAdd`,
  `mapTypeAdd`, `objSet`).
* `JS Set`s of strings/records preserve insertion order and deduplicate;
  they are embedded as lists grown with `setAdd`.
* Date parsing (`date-fns parseISO`, an external library the spec treats as
  an upstream collaborator) is not re-implemented: the parse result
  `_parsedDate : Date | null` is carried in the input data as
  `parsedDate : Option Int` (milliseconds since epoch), exactly the value
  `LeadRecord.compareByDate` consumes via `getTime()`.
* `Array.prototype.sort` is embedded as a stable insertion sort over the
  source comparator.  The comparator used by `sortRecordsByDate` never
  returns 0 on two distinct engine records (the index tie-break separates
  them), so whenever the comparator is consistent the sorted result is the
  unique totally ordered list and agrees with any JS implementation; no
  theorem below depends on the order produced from an inconsistent
  comparator.
-/

/-- The data of a lead record (`LeadRecordData` in `models.ts`), together
with the parse result of its `entryDate` (the `_parsedDate` member computed
at construction by the external date parser). -/
structure LeadRecordData where
  _id : String
  email : String
  entryDate : String
  firstName : Option String
  lastName : Option String
  address : Option String
  parsedDate : Option Int
deriving DecidableEq, Repr

/-- A `LeadRecord` instance held by the engine: the record data plus its
position `tag` in the engine's record array, standing in for JS object
identity. -/
structure LeadRecord where
  tag : Nat
  _id : String
  email : String
  entryDate : String
  firstName : Option String
  lastName : Option String
  address : Option String
  parsedDate : Option Int
deriving DecidableEq, Repr

/-- Construct the engine-side record for input datum `d` at position `i`. -/
def toRec (i : Nat) (d : LeadRecordData) : LeadRecord :=
  { tag := i, _id := d._id, email := d.email, entryDate := d.entryDate
    firstName := d.firstName, lastName := d.lastName, address := d.address
    parsedDate := d.parsedDate }

/-- Tag a list of input data with consecutive positions starting at `i`. -/
def tagFrom (i : Nat) : List LeadRecordData → List LeadRecord
  | [] => []
  | d :: rest => toRec i d :: tagFrom (i + 1) rest

/-- Records as stored by a fresh engine after `addRecords`: tagged by
position in the array. -/
def tagRecords (input : List LeadRecordData) : List LeadRecord :=
  tagFrom 0 input

@[simp] theorem toRec_tag (i : Nat) (d : LeadRecordData) : (toRec i d).tag = i := rfl
@[simp] theorem toRec_id (i : Nat) (d : LeadRecordData) : (toRec i d)._id = d._id := rfl
@[simp] theorem toRec_email (i : Nat) (d : LeadRecordData) : (toRec i d).email = d.email := rfl
@[simp] theorem toRec_entryDate (i : Nat) (d : LeadRecordData) : (toRec i d).entryDate = d.entryDate := rfl
@[simp] theorem toRec_firstName (i : Nat) (d : LeadRecordData) : (toRec i d).firstName = d.firstName := rfl
@[simp] theorem toRec_lastName (i : Nat) (d : LeadRecordData) : (toRec i d).lastName = d.lastName := rfl
@[simp] theorem toRec_address (i : Nat) (d : LeadRecordData) : (toRec i d).address = d.address := rfl
@[simp] theorem toRec_parsedDate (i : Nat) (d : LeadRecordData) : (toRec i d).parsedDate = d.parsedDate := rfl

theorem toRec_ne_of_tag {i j : Nat} (h : i ≠ j) (a b : LeadRecordData) :
    toRec i a ≠ toRec j b := by
  intro hcontra
  exact h (congrArg LeadRecord.tag hcontra)

/-- Forget the identity tag (used when an engine output array is handed to
a second, fresh engine). -/
def LeadRecord.toData (r : LeadRecord) : LeadRecordData :=
  { _id := r._id, email := r.email, entryDate := r.entryDate
    firstName := r.firstName, lastName := r.lastName, address := r.address
    parsedDate := r.parsedDate }

/-- `LeadRecord.compareByDate` (`models.ts`): 0 whenever either date failed
to parse, otherwise -1/0/1 by comparing the parsed times. -/
def LeadRecord.compareByDate (a b : LeadRecord) : Int :=
  match a.parsedDate, b.parsedDate with
  | some x, some y => if x < y then -1 else if x > y then 1 else 0
  | _, _ => 0

/-- `Array.prototype.indexOf` under reference equality (−1 when absent). -/
def jsIndexOf (rs : List LeadRecord) (r : LeadRecord) : Int :=
  match rs.findIdx? (fun x => x == r) with
  | some i => (i : Int)
  | none => -1

/-- Insert into a sorted list, placing `a` after elements that compare ≤ 0
against it (stable insertion). -/
def insertCmp {α : Type} (cmp : α → α → Int) (a : α) : List α → List α
  | [] => [a]
  | b :: l => if cmp a b ≤ 0 then a :: b :: l else b :: insertCmp cmp a l

/-- Stable insertion sort by a JS-style comparator. -/
def insertionSortBy {α : Type} (cmp : α → α → Int) : List α → List α
  | [] => []
  | a :: l => insertCmp cmp a (insertionSortBy cmp l)

/-- Lexicographic order on code-unit sequences (JS compares strings by
UTF-16 code units; for the code points occurring in record keys this is the
code-point order used here). -/
def charListLt : List Char → List Char → Bool
  | [], [] => false
  | [], _ :: _ => true
  | _ :: _, [] => false
  | a :: as, b :: bs =>
      if a.toNat < b.toNat then true
      else if b.toNat < a.toNat then false
      else charListLt as bs

/-- Default JS string comparator (lexicographic). -/
def strCmp (a b : String) : Int :=
  if charListLt a.data b.data then -1
  else if charListLt b.data a.data then 1
  else 0

/-- `Array.prototype.sort()` on strings. -/
def jsSortStrings (l : List String) : List String :=
  insertionSortBy strCmp l

/-- `Array.prototype.join(',')`. -/
def joinComma : List String → String
  | [] => ""
  | [s] => s
  | s :: rest => s ++ "," ++ joinComma rest

/-- Conflict types of `ConflictInfo` (`engine.ts`). -/
inductive ConflictType where
  | id_conflict
  | email_conflict
  | cross_conflict
deriving DecidableEq, Repr

/-- Merge reasons of `MergeDecision` (`engine.ts`). -/
inductive MergeReason where
  | newer_date
  | last_in_list
  | same_record
deriving DecidableEq, Repr

/-- The `details` payload of a cross `ConflictInfo`. -/
structure ConflictDetails where
  recordId : String
  email : String
  sameIdRecords : List (String × String × String)
  sameEmailRecords : List (String × String × String)
deriving DecidableEq, Repr

/-- `ConflictInfo` (`engine.ts`). -/
structure ConflictInfo where
  type : ConflictType
  records : List LeadRecord
  conflictingIds : List String
  conflictingEmails : Option (List String)
  details : Option ConflictDetails
deriving DecidableEq, Repr

/-- `MergeDecision` (`engine.ts`). -/
structure MergeDecision where
  keptRecord : LeadRecord
  droppedRecord : LeadRecord
  reason : MergeReason
  conflictType : ConflictType
deriving DecidableEq, Repr

/-- The `summary` member of `DeduplicationResult`. -/
structure DedupSummary where
  totalRecords : Nat
  uniqueRecords : Nat
  conflictsResolved : Nat
  crossConflictsFound : Nat
deriving DecidableEq, Repr

/-- `DeduplicationResult` (`engine.ts`). -/
structure DeduplicationResult where
  uniqueRecords : List LeadRecord
  conflicts : List ConflictInfo
  crossConflicts : List ConflictInfo
  summary : DedupSummary
deriving DecidableEq, Repr

/-- Write into a JS `Map<string, LeadRecord[]>` bucket: push onto the
existing bucket, or append a fresh singleton bucket (insertion order). -/
def indexAdd (m : List (String × List LeadRecord)) (k : String) (r : LeadRecord) :
    List (String × List LeadRecord) :=
  match m with
  | [] => [(k, [r])]
  | (k', rs) :: rest =>
      if k' = k then (k', rs ++ [r]) :: rest else (k', rs) :: indexAdd rest k r

/-- `buildIndexes` for one key function (`engine.ts` builds one such map
keyed by `_id` and one keyed by `email`). -/
def buildIndex (key : LeadRecord → String) (records : List LeadRecord) :
    List (String × List LeadRecord) :=
  records.foldl (fun m r => indexAdd m (key r) r) []

/-- `DeduplicationEngine.detectConflicts`: every id bucket of size > 1 as an
`id_conflict`, then every email bucket of size > 1 as an `email_conflict`. -/
def detectConflictsFrom (idIndex emailIndex : List (String × List LeadRecord)) :
    List ConflictInfo :=
  ((idIndex.filter (fun kv => kv.2.length > 1)).map (fun kv =>
      { type := ConflictType.id_conflict, records := kv.2
        conflictingIds := kv.2.map (fun r => r._id)
        conflictingEmails := none, details := none }))
  ++ ((emailIndex.filter (fun kv => kv.2.length > 1)).map (fun kv =>
      { type := ConflictType.email_conflict, records := kv.2
        conflictingIds := kv.2.map (fun r => r._id)
        conflictingEmails := none, details := none }))

/-- `detectConflicts` on a record list with freshly built indexes. -/
def detectConflictsR (records : List LeadRecord) : List ConflictInfo :=
  detectConflictsFrom (buildIndex (fun r => r._id) records)
    (buildIndex (fun r => r.email) records)

/-- JS `Set.add` on a list kept in insertion order. -/
def setAdd {α : Type} [DecidableEq α] (s : List α) (x : α) : List α :=
  if x ∈ s then s else s ++ [x]

/-- `Array.from(new Set(l))`: deduplicate keeping first occurrences. -/
def dedupKeepFirst {α : Type} [DecidableEq α] (l : List α) : List α :=
  l.foldl setAdd []

/-- Write into a JS `Map<string, Set<string>>` of conflict types:
`map.get(k)!.add(t)`, creating the entry when absent. -/
def mapTypeAdd (m : List (String × List ConflictType)) (k : String)
    (t : ConflictType) : List (String × List ConflictType) :=
  match m with
  | [] => [(k, [t])]
  | (k', ts) :: rest =>
      if k' = k then (k', setAdd ts t) :: rest else (k', ts) :: mapTypeAdd rest k t

/-- The `recordConflicts` (keyed by `_id`) and `emailConflicts` (keyed by
`email`) maps that `detectAllConflicts` builds over all detected
conflicts. -/
def conflictMapsStep (c : ConflictInfo)
    (maps : List (String × List ConflictType) × List (String × List ConflictType))
    (r : LeadRecord) :
    List (String × List ConflictType) × List (String × List ConflictType) :=
  (mapTypeAdd maps.1 r._id c.type, mapTypeAdd maps.2 r.email c.type)

def buildConflictMaps (conflicts : List ConflictInfo) :
    List (String × List ConflictType) × List (String × List ConflictType) :=
  conflicts.foldl (fun maps c => c.records.foldl (conflictMapsStep c) maps) ([], [])

/-- The `crossConflictGroups` loop of `detectAllConflicts`: for every entry
of `recordConflicts` whose type set contains `id_conflict`, look up the
first stored record with that `_id`; if its email occurs as a key of
`emailConflicts`, push that record under the key
`cross_<recordId>_<email>`. -/
def buildCrossGroups (records : List LeadRecord)
    (recordConflicts emailConflicts : List (String × List ConflictType)) :
    List (String × List LeadRecord) :=
  recordConflicts.foldl
    (fun groups kv =>
      if ConflictType.id_conflict ∈ kv.2 then
        match records.find? (fun r => r._id == kv.1) with
        | some record =>
            if (emailConflicts.lookup record.email).isSome then
              indexAdd groups ("cross_" ++ kv.1 ++ "_" ++ record.email) record
            else groups
        | none => groups
      else groups)
    []

/-- Conversion of `crossConflictGroups` into `cross_conflict`
`ConflictInfo`s: for each nonempty group, gather all records sharing the
primary record's `_id`, all records sharing its `email`, and deduplicate. -/
def crossInfos (records : List LeadRecord)
    (groups : List (String × List LeadRecord)) : List ConflictInfo :=
  groups.foldl
    (fun acc kv =>
      match kv.2 with
      | [] => acc
      | primary :: _ =>
          let sameIdRecords := records.filter (fun r => r._id = primary._id)
          let sameEmailRecords := records.filter (fun r => r.email = primary.email)
          let allRelated := dedupKeepFirst (sameIdRecords ++ sameEmailRecords)
          acc ++ [{ type := ConflictType.cross_conflict
                    records := allRelated
                    conflictingIds := [primary._id]
                    conflictingEmails := some [primary.email]
                    details := some
                      { recordId := primary._id, email := primary.email
                        sameIdRecords := sameIdRecords.map (fun r => (r._id, r.email, r.entryDate))
                        sameEmailRecords := sameEmailRecords.map (fun r => (r._id, r.email, r.entryDate)) } }])
    []

/-- The cross-conflict part of `detectAllConflicts`, given the already
detected pairwise conflicts. -/
def detectAllConflictsCore (records : List LeadRecord)
    (conflicts : List ConflictInfo) : List ConflictInfo :=
  let maps := buildConflictMaps conflicts
  crossInfos records (buildCrossGroups records maps.1 maps.2)

/-- `DeduplicationEngine.detectAllConflicts` on a record list with freshly
built indexes. -/
def detectAllConflictsR (records : List LeadRecord) : List ConflictInfo :=
  let idConflicts := detectConflictsR records
  idConflicts ++ detectAllConflictsCore records idConflicts

/-- The comparator of `sortRecordsByDate`: date comparison reversed (newest
first), ties broken by original array position, later position first. -/
def sortCmp (records : List LeadRecord) (a b : LeadRecord) : Int :=
  let dateComparison := a.compareByDate b
  if dateComparison ≠ 0 then -dateComparison
  else jsIndexOf records b - jsIndexOf records a

/-- `DeduplicationEngine.sortRecordsByDate`. -/
def sortRecordsByDate (records : List LeadRecord) (group : List LeadRecord) :
    List LeadRecord :=
  insertionSortBy (sortCmp records) group

/-- `DeduplicationEngine.determineMergeReason`. -/
def determineMergeReason (keptRecord droppedRecord : LeadRecord) : MergeReason :=
  let dateComparison := keptRecord.compareByDate droppedRecord
  if dateComparison > 0 then MergeReason.newer_date
  else if dateComparison < 0 then MergeReason.last_in_list
  else MergeReason.last_in_list

/-- The group key `resolveConflicts` uses to avoid processing the same set
of records twice: the sorted, comma-joined `_id`s of the group. -/
def groupKeyOf (c : ConflictInfo) : String :=
  joinComma (jsSortStrings (c.records.map (fun r => r._id)))

/-- The `conflicts.forEach` loop of `resolveConflicts`, threading the
`processedGroups` set. -/
def resolveConflictsAux (records : List LeadRecord) :
    List ConflictInfo → List String → List MergeDecision
  | [], _ => []
  | c :: rest, processed =>
      if c.records.length > 1 then
        let groupKey := groupKeyOf c
        if groupKey ∈ processed then resolveConflictsAux records rest processed
        else
          let ds :=
            match sortRecordsByDate records c.records with
            | [] => []
            | keptRecord :: droppedRecords =>
                droppedRecords.map (fun droppedRecord =>
                  { keptRecord := keptRecord, droppedRecord := droppedRecord
                    reason := determineMergeReason keptRecord droppedRecord
                    conflictType := c.type })
          ds ++ resolveConflictsAux records rest (processed ++ [groupKey])
      else resolveConflictsAux records rest processed

/-- `DeduplicationEngine.resolveConflicts`. -/
def resolveConflictsR (records : List LeadRecord) (conflicts : List ConflictInfo) :
    List MergeDecision :=
  resolveConflictsAux records conflicts []

/-- The `recordsToKeep` set right after the `decisions.forEach` loop of
`deduplicate`: the kept record of every decision. -/
def keptListOf (decisions : List MergeDecision) : List LeadRecord :=
  decisions.foldl (fun s d => setAdd s d.keptRecord) []

/-- The `recordsToDrop` set of `deduplicate`: the dropped record of every
decision. -/
def dropListOf (decisions : List MergeDecision) : List LeadRecord :=
  decisions.foldl (fun s d => setAdd s d.droppedRecord) []

/-- The final `recordsToKeep` set of `deduplicate`: kept records of the
decisions plus every stored record that no decision drops. -/
def keepListOf (records : List LeadRecord) (decisions : List MergeDecision) :
    List LeadRecord :=
  records.foldl (fun s r => if r ∈ dropListOf decisions then s else setAdd s r)
    (keptListOf decisions)

/-- `DeduplicationEngine.deduplicate`, given the stored records and the
conflicts detected from the engine state. -/
def deduplicateFrom (records : List LeadRecord) (allConflicts : List ConflictInfo) :
    DeduplicationResult :=
  let decisions := resolveConflictsR records allConflicts
  let recordsToKeep := keepListOf records decisions
  let uniqueRecords := records.filter (fun r => r ∈ recordsToKeep)
  let idConflicts := allConflicts.filter (fun c => c.type = ConflictType.id_conflict)
  let emailConflicts := allConflicts.filter (fun c => c.type = ConflictType.email_conflict)
  let crossConflicts := allConflicts.filter (fun c => c.type = ConflictType.cross_conflict)
  { uniqueRecords := uniqueRecords
    conflicts := idConflicts ++ emailConflicts
    crossConflicts := crossConflicts
    summary :=
      { totalRecords := records.length
        uniqueRecords := uniqueRecords.length
        conflictsResolved := decisions.length
        crossConflictsFound := crossConflicts.length } }

/-- The mutable state of a `DeduplicationEngine` instance: the record array
and the two indexes (rebuilt from scratch by `buildIndexes` on every
`addRecords`). -/
structure EngineState where
  records : List LeadRecord
  idIndex : List (String × List LeadRecord)
  emailIndex : List (String × List LeadRecord)
deriving DecidableEq, Repr

/-- A freshly constructed engine. -/
def EngineState.fresh : EngineState :=
  { records := [], idIndex := [], emailIndex := [] }

/-- `DeduplicationEngine.addRecords`: append, then rebuild both indexes. -/
def EngineState.addRecords (s : EngineState) (new : List LeadRecord) : EngineState :=
  let records := s.records ++ new
  { records := records
    idIndex := buildIndex (fun r => r._id) records
    emailIndex := buildIndex (fun r => r.email) records }

/-- `detectConflicts` as a method (reads the stored indexes). -/
def EngineState.detectConflicts (s : EngineState) : List ConflictInfo :=
  detectConflictsFrom s.idIndex s.emailIndex

/-- `detectAllConflicts` as a method. -/
def EngineState.detectAllConflicts (s : EngineState) : List ConflictInfo :=
  let idConflicts := s.detectConflicts
  idConflicts ++ detectAllConflictsCore s.records idConflicts

/-- `resolveConflicts` as a method. -/
def EngineState.resolveConflicts (s : EngineState) (conflicts : List ConflictInfo) :
    List MergeDecision :=
  resolveConflictsR s.records conflicts

/-- `deduplicate` as a method.  The method body reads `this.records` and the
indexes and assigns to no field of `this`, so the post-state is the
pre-state. -/
def EngineState.deduplicate (s : EngineState) : EngineState × DeduplicationResult :=
  (s, deduplicateFrom s.records s.detectAllConflicts)

/-- `DeduplicationEngine.getAllRecords` (returns a copy of the array). -/
def EngineState.getAllRecords (s : EngineState) : List LeadRecord :=
  s.records

/-- A fresh engine after `addRecords` with the given input list. -/
def engineAfterAdd (input : List LeadRecordData) : EngineState :=
  EngineState.fresh.addRecords (tagRecords input)

/-- `deduplicate()` of a fresh engine loaded with `input`. -/
def dedupPipeline (input : List LeadRecordData) : DeduplicationResult :=
  (engineAfterAdd input).deduplicate.2

/-- `detectAllConflicts()` of a fresh engine loaded with `input`. -/
def detectPipeline (input : List LeadRecordData) : List ConflictInfo :=
  (engineAfterAdd input).detectAllConflicts

/-- The merge decisions `deduplicate()` produces internally on a fresh
engine loaded with `input` (recomputed; definitionally the same list). -/
def pipelineDecisions (input : List LeadRecordData) : List MergeDecision :=
  (engineAfterAdd input).resolveConflicts (detectPipeline input)

/-- `FieldChange` (`logger.ts`).  Field values are `String` or `undefined`
in the source; both are embedded as `Option String`. -/
structure FieldChange where
  field : String
  keptValue : Option String
  droppedValue : Option String
  conflictType : ConflictType
  reason : MergeReason
deriving DecidableEq, Repr

/-- `LogEntry` (`logger.ts`); the `changes` JS object is an insertion
ordered association list. -/
structure LogEntry where
  timestamp : String
  keptRecordId : String
  droppedRecordId : String
  conflictType : ConflictType
  reason : MergeReason
  changes : List (String × Option String)
  keptRecordEmail : String
  droppedRecordEmail : String
  keptRecordDate : String
  droppedRecordDate : String
deriving DecidableEq, Repr

/-- The `summary` member of the `ChangeLog` structure. -/
structure LogSummary where
  totalConflicts : Nat
  idConflicts : Nat
  emailConflicts : Nat
  crossConflicts : Nat
  totalChanges : Nat
  timestamp : String
deriving DecidableEq, Repr

/-- The mutable state of a `ChangeLogger` instance. -/
structure ChangeLoggerState where
  entries : List LogEntry
  summary : LogSummary
deriving DecidableEq, Repr

/-- The fixed field set `extractFieldChanges` iterates over. -/
def changeFields : List String :=
  ["_id", "email", "entryDate", "firstName", "lastName", "address"]

/-- The reflective field read `(record as any)[field]` on the known field
set (`undefined`, i.e. `none`, on any other name). -/
def fieldVal (r : LeadRecord) (field : String) : Option String :=
  if field = "_id" then some r._id
  else if field = "email" then some r.email
  else if field = "entryDate" then some r.entryDate
  else if field = "firstName" then r.firstName
  else if field = "lastName" then r.lastName
  else if field = "address" then r.address
  else none

/-- `ChangeLogger.extractFieldChanges`: one `FieldChange` per field whose
kept and dropped values differ, in field-set order. -/
def extractFieldChanges (decision : MergeDecision) : List FieldChange :=
  changeFields.foldl
    (fun changes field =>
      let keptValue := fieldVal decision.keptRecord field
      let droppedValue := fieldVal decision.droppedRecord field
      if keptValue ≠ droppedValue then
        changes ++ [{ field := field, keptValue := keptValue
                      droppedValue := droppedValue
                      conflictType := decision.conflictType
                      reason := decision.reason }]
      else changes)
    []

/-- `ChangeLogger.capitalizeField`: `_id ↦ Id`, otherwise capitalize the
first character. -/
def capitalizeField (field : String) : String :=
  if field = "_id" then "Id"
  else
    match field.data with
    | [] => ""
    | c :: rest => String.mk (c.toUpper :: rest)

/-- JS object property assignment `obj[k] = v` on an insertion-ordered
association list: overwrite in place, or append a fresh key. -/
def objSet (m : List (String × Option String)) (k : String) (v : Option String) :
    List (String × Option String) :=
  match m with
  | [] => [(k, v)]
  | (k', v') :: rest =>
      if k' = k then (k', v) :: rest else (k', v') :: objSet rest k v

/-- The `changes` object of a log entry: `kept<Field>`/`dropped<Field>`
pairs for every extracted field change. -/
def changesOf (decision : MergeDecision) : List (String × Option String) :=
  (extractFieldChanges decision).foldl
    (fun m change =>
      objSet (objSet m ("kept" ++ capitalizeField change.field) change.keptValue)
        ("dropped" ++ capitalizeField change.field) change.droppedValue)
    []

/-- The `LogEntry` built by `logMergeDecision` at clock value `now`. -/
def logEntryOf (now : String) (decision : MergeDecision) : LogEntry :=
  { timestamp := now
    keptRecordId := decision.keptRecord._id
    droppedRecordId := decision.droppedRecord._id
    conflictType := decision.conflictType
    reason := decision.reason
    changes := changesOf decision
    keptRecordEmail := decision.keptRecord.email
    droppedRecordEmail := decision.droppedRecord.email
    keptRecordDate := decision.keptRecord.entryDate
    droppedRecordDate := decision.droppedRecord.entryDate }

/-- `ChangeLogger.updateSummary`. -/
def updateSummary (summary : LogSummary) (conflictType : ConflictType)
    (changeCount : Nat) : LogSummary :=
  let summary :=
    { summary with
      totalConflicts := summary.totalConflicts + 1
      totalChanges := summary.totalChanges + changeCount }
  match conflictType with
  | ConflictType.id_conflict => { summary with idConflicts := summary.idConflicts + 1 }
  | ConflictType.email_conflict => { summary with emailConflicts := summary.emailConflicts + 1 }
  | ConflictType.cross_conflict => { summary with crossConflicts := summary.crossConflicts + 1 }

/-- `ChangeLogger.logMergeDecision` at clock value `now`. -/
def logMergeDecision (s : ChangeLoggerState) (now : String)
    (decision : MergeDecision) : ChangeLoggerState :=
  { entries := s.entries ++ [logEntryOf now decision]
    summary := updateSummary s.summary decision.conflictType
      (extractFieldChanges decision).length }

/-- A freshly constructed (or freshly cleared) logger, timestamped `now`. -/
def loggerFresh (now : String) : ChangeLoggerState :=
  { entries := []
    summary :=
      { totalConflicts := 0, idConflicts := 0, emailConflicts := 0
        crossConflicts := 0, totalChanges := 0, timestamp := now } }

/-- `ChangeLogger.clear` at clock value `now`. -/
def loggerClear (_ : ChangeLoggerState) (now : String) : ChangeLoggerState :=
  loggerFresh now

/-- One public call in a `clear`/`logMergeDecision` call sequence, with the
clock value observed during the call. -/
inductive LoggerOp where
  | clearOp (now : String)
  | logOp (now : String) (decision : MergeDecision)

/-- Apply one logger call to the logger state. -/
def applyLoggerOp (s : ChangeLoggerState) : LoggerOp → ChangeLoggerState
  | LoggerOp.clearOp now => loggerClear s now
  | LoggerOp.logOp now decision => logMergeDecision s now decision

/-- Run a sequence of logger calls. -/
def runLogger (s : ChangeLoggerState) (ops : List LoggerOp) : ChangeLoggerState :=
  ops.foldl applyLoggerOp s

/-- The counter coherence invariant of the logger state (claim C9): the
stored conflict total equals the number of entries, splits into the three
per-kind counters, and `totalChanges` counts the changed fields recorded
over all entries (each changed field contributes exactly two keys to its
entry's change map). -/
def LoggerInv (s : ChangeLoggerState) : Prop :=
  s.summary.totalConflicts = s.entries.length
  ∧ s.summary.totalConflicts =
      s.summary.idConflicts + s.summary.emailConflicts + s.summary.crossConflicts
  ∧ 2 * s.summary.totalChanges = (s.entries.map (fun e => e.changes.length)).sum

/-- Three records forming a chained (cross) conflict: the first two share
`_id` `"x"`, the first and third share email `"a"`; parsed times 2, 3, 1.
This is Scenario C of the spec (records R1, R2, R3). -/
def crossChainInput : List LeadRecordData :=
  [ { _id := "x", email := "a", entryDate := "2014-05-07T17:30:02+00:00"
      firstName := none, lastName := none, address := none, parsedDate := some 2 }
  , { _id := "x", email := "b", entryDate := "2014-05-07T17:30:03+00:00"
      firstName := none, lastName := none, address := none, parsedDate := some 3 }
  , { _id := "y", email := "a", entryDate := "2014-05-07T17:30:01+00:00"
      firstName := none, lastName := none, address := none, parsedDate := some 1 } ]

/-- Two records sharing `_id` `"x"` with distinct emails and no email
collision anywhere. -/
def pureIdDupInput : List LeadRecordData :=
  [ { _id := "x", email := "a", entryDate := "2014-05-07T17:30:01+00:00"
      firstName := none, lastName := none, address := none, parsedDate := some 1 }
  , { _id := "x", email := "b", entryDate := "2014-05-07T17:30:02+00:00"
      firstName := none, lastName := none, address := none, parsedDate := some 2 } ]

/-- C1.  The claimed uniqueness invariant fails on the code: on
`crossChainInput` the engine resolves the id-group `{R1, R2}`, the
email-group `{R1, R3}` and the synthesized cross-group `{R1, R2, R3}` as
independent groups, `R1` is dropped by two groups but also kept by one, and
the final output retains both `R1` and `R2`, which share `_id` `"x"`. -/
theorem uniqueness_invariant_fails_on_cross_chain :
    (dedupPipeline crossChainInput).uniqueRecords.map (fun r => r._id) = ["x", "x"]
    ∧ ¬ (dedupPipeline crossChainInput).uniqueRecords.Pairwise
        (fun a b => a._id ≠ b._id ∧ a.email ≠ b.email) := by
  decide

/-- C2.  Idempotence fails on the code: feeding the `uniqueRecords` output
for `crossChainInput` (which still contains two records with `_id` `"x"`)
into a fresh engine detects further conflicts and drops another record. -/
theorem idempotence_fails_on_cross_chain :
    ¬ (detectPipeline ((dedupPipeline crossChainInput).uniqueRecords.map LeadRecord.toData) = []
       ∧ (dedupPipeline ((dedupPipeline crossChainInput).uniqueRecords.map LeadRecord.toData)).uniqueRecords
         = tagRecords ((dedupPipeline crossChainInput).uniqueRecords.map LeadRecord.toData)) := by
  decide

/-- C3.  The completeness count fails on the code: on `crossChainInput`
the engine emits 4 merge decisions (the pair `kept R2 / dropped R1` is even
emitted twice) while the output has 2 records and the input 3, so
`|output| + |decisions| = 6 ≠ 3`. -/
theorem completeness_count_fails_on_cross_chain :
    ¬ ((dedupPipeline crossChainInput).uniqueRecords.length
        + (pipelineDecisions crossChainInput).length = crossChainInput.length) := by
  decide

/-- C4 counterexample.  `pureIdDupInput` has pairwise distinct emails, so
its only key collision is an id collision, yet `detectAllConflicts` reports
a `cross_conflict` alongside the `id_conflict` — refuting the claim that a
group arising from only one kind of key collision is reported only with
that single kind. -/
theorem cross_conflict_reported_for_pure_id_dup :
    (pureIdDupInput.map (fun d => d.email)).Nodup
    ∧ (detectPipeline pureIdDupInput).map (fun c => c.type)
        = [ConflictType.id_conflict, ConflictType.cross_conflict] := by
  decide

/-- C8.  On an empty record set — a fresh engine, with or without an
`addRecords([])` call — `deduplicate()` returns empty `uniqueRecords`,
`conflicts` and `crossConflicts` and an all-zero summary. -/
theorem deduplicate_empty_input :
    engineAfterAdd [] = EngineState.fresh
    ∧ EngineState.deduplicate EngineState.fresh
        = (EngineState.fresh,
           { uniqueRecords := [], conflicts := [], crossConflicts := []
             summary := { totalRecords := 0, uniqueRecords := 0
                          conflictsResolved := 0, crossConflictsFound := 0 } }) := by
  decide

/-- C10.  `deduplicate()` assigns to no field of the engine: the post-state
is the pre-state, `getAllRecords()` is unchanged, and an immediate second
call returns the same result. -/
theorem deduplicate_frame_and_repeatable (s : EngineState) :
    (EngineState.deduplicate s).1 = s
    ∧ ((EngineState.deduplicate s).1).getAllRecords = s.getAllRecords
    ∧ (EngineState.deduplicate ((EngineState.deduplicate s).1)).2
        = (EngineState.deduplicate s).2 :=
  ⟨rfl, rfl, rfl⟩

/-- The `kept<Field>` key of a field's change entry. -/
def keptKeyOf (f : String) : String := "kept" ++ capitalizeField f

/-- The `dropped<Field>` key of a field's change entry. -/
def drpKeyOf (f : String) : String := "dropped" ++ capitalizeField f

/-- The flat key/value pair list a change set denotes. -/
def changePairs (cs : List FieldChange) : List (String × Option String) :=
  cs.flatMap (fun c => [(keptKeyOf c.field, c.keptValue), (drpKeyOf c.field, c.droppedValue)])

/-- The keys written while building a change object. -/
def changeKeys (cs : List FieldChange) : List String :=
  cs.flatMap (fun c => [keptKeyOf c.field, drpKeyOf c.field])

theorem objSet_fresh (m : List (String × Option String)) (k : String)
    (v : Option String) (h : k ∉ m.map Prod.fst) : objSet m k v = m ++ [(k, v)] := by
  induction m with
  | nil => rfl
  | cons kv rest ih =>
      simp only [List.map_cons, List.mem_cons, not_or] at h
      cases kv with
      | mk k' v' =>
          simp only [objSet, if_neg (Ne.symm h.1), List.cons_append]
          rw [ih h.2]

theorem foldl_objSet_eq (cs : List FieldChange) :
    ∀ init : List (String × Option String),
      (changeKeys cs).Nodup →
      (∀ k ∈ init.map Prod.fst, k ∉ changeKeys cs) →
      cs.foldl
        (fun m c =>
          objSet (objSet m (keptKeyOf c.field) c.keptValue)
            (drpKeyOf c.field) c.droppedValue)
        init
      = init ++ changePairs cs := by
  induction cs with
  | nil => intro init _ _; simp [changePairs]
  | cons c cs ih =>
      intro init hnodup hdisj
      have hkeys : changeKeys (c :: cs)
          = keptKeyOf c.field :: drpKeyOf c.field :: changeKeys cs := by
        simp [changeKeys]
      rw [hkeys] at hnodup hdisj
      obtain ⟨hkk, hrest⟩ := List.nodup_cons.mp hnodup
      obtain ⟨hdk, htail⟩ := List.nodup_cons.mp hrest
      have hk1 : keptKeyOf c.field ∉ init.map Prod.fst := fun hmem =>
        hdisj _ hmem (by simp)
      have step1 : objSet init (keptKeyOf c.field) c.keptValue
          = init ++ [(keptKeyOf c.field, c.keptValue)] :=
        objSet_fresh _ _ _ hk1
      have hd1 : drpKeyOf c.field
          ∉ (init ++ [(keptKeyOf c.field, c.keptValue)]).map Prod.fst := by
        simp only [List.map_append, List.mem_append, List.map_cons, List.map_nil,
          List.mem_singleton, not_or]
        refine ⟨fun hmem => hdisj _ hmem (by simp), ?_⟩
        intro hcontra
        exact hkk (by simp [hcontra])
      have step2 : objSet (init ++ [(keptKeyOf c.field, c.keptValue)])
            (drpKeyOf c.field) c.droppedValue
          = init ++ [(keptKeyOf c.field, c.keptValue), (drpKeyOf c.field, c.droppedValue)] := by
        rw [objSet_fresh _ _ _ hd1, List.append_assoc]
        rfl
      simp only [List.foldl_cons]
      rw [step1, step2]
      have hdisj' : ∀ k ∈ (init
            ++ [(keptKeyOf c.field, c.keptValue), (drpKeyOf c.field, c.droppedValue)]).map Prod.fst,
          k ∉ changeKeys cs := by
        intro k hk
        simp only [List.map_append, List.mem_append, List.map_cons, List.map_nil,
          List.mem_cons, List.not_mem_nil, or_false] at hk
        rcases hk with h | h | h
        · intro hmem
          exact hdisj _ h (by simp [hmem])
        · subst h
          intro hmem
          exact hkk (by simp [hmem])
        · subst h
          exact hdk
      rw [ih _ htail hdisj']
      simp [changePairs, List.append_assoc]

theorem foldl_ite_append {α β : Type} (p : α → Prop) [DecidablePred p] (g : α → β) :
    ∀ (l : List α) (init : List β),
      l.foldl (fun acc a => if p a then acc ++ [g a] else acc) init
        = init ++ (l.filter (fun a => decide (p a))).map g := by
  intro l
  induction l with
  | nil => intro init; simp
  | cons a l ih =>
      intro init
      by_cases h : p a
      · simp [h, ih, List.append_assoc]
      · simp [h, ih]

theorem extractFieldChanges_eq (d : MergeDecision) :
    extractFieldChanges d
      = ((changeFields.filter
            (fun f => decide (fieldVal d.keptRecord f ≠ fieldVal d.droppedRecord f))).map
          (fun f =>
            { field := f, keptValue := fieldVal d.keptRecord f
              droppedValue := fieldVal d.droppedRecord f
              conflictType := d.conflictType, reason := d.reason })) := by
  have h := foldl_ite_append
    (fun f => fieldVal d.keptRecord f ≠ fieldVal d.droppedRecord f)
    (fun f =>
      ({ field := f, keptValue := fieldVal d.keptRecord f
         droppedValue := fieldVal d.droppedRecord f
         conflictType := d.conflictType, reason := d.reason } : FieldChange))
    changeFields []
  simpa [extractFieldChanges] using h

theorem flatMapOfMap {α β γ : Type} (l : List α) (f : α → β) (g : β → List γ) :
    (l.map f).flatMap g = l.flatMap (fun a => g (f a)) := by
  induction l with
  | nil => rfl
  | cons a l ih => simp [ih]

theorem sublistFlatMap {α β : Type} {l₁ l₂ : List α} (g : α → List β)
    (h : l₁.Sublist l₂) : (l₁.flatMap g).Sublist (l₂.flatMap g) := by
  induction h with
  | slnil => simp
  | cons a _ ih =>
      simp only [List.flatMap_cons]
      exact ih.trans (List.sublist_append_right _ _)
  | cons₂ a _ ih =>
      simp only [List.flatMap_cons]
      exact ih.append_left _

theorem changeKeys_nodup (d : MergeDecision) :
    (changeKeys (extractFieldChanges d)).Nodup := by
  have hall : (changeFields.flatMap (fun f => [keptKeyOf f, drpKeyOf f])).Nodup := by decide
  have hmap : changeKeys (extractFieldChanges d)
      = ((extractFieldChanges d).map (fun c => c.field)).flatMap
          (fun f => [keptKeyOf f, drpKeyOf f]) := by
    rw [flatMapOfMap]
    rfl
  have hfields : ((extractFieldChanges d).map (fun c => c.field)).Sublist changeFields := by
    rw [extractFieldChanges_eq, List.map_map]
    have hid : ((fun (c : FieldChange) => c.field) ∘ (fun f =>
        ({ field := f, keptValue := fieldVal d.keptRecord f
           droppedValue := fieldVal d.droppedRecord f
           conflictType := d.conflictType, reason := d.reason } : FieldChange))) = id := rfl
    rw [hid, List.map_id]
    exact List.filter_sublist changeFields
  rw [hmap]
  exact hall.sublist (sublistFlatMap _ hfields)

theorem changesOf_eq_pairs (d : MergeDecision) :
    changesOf d = changePairs (extractFieldChanges d) := by
  have h := foldl_objSet_eq (extractFieldChanges d) [] (changeKeys_nodup d) (by simp)
  simpa [changesOf] using h

theorem changePairs_length (cs : List FieldChange) :
    (changePairs cs).length = 2 * cs.length := by
  induction cs with
  | nil => rfl
  | cons c cs ih => simp [changePairs, List.flatMap_cons] at ih ⊢; omega

theorem findBeq {α : Type} [DecidableEq α] (l : List α) (a : α) :
    l.find? (fun x => x == a) = if a ∈ l then some a else none := by
  induction l with
  | nil => simp
  | cons b l ih =>
      by_cases hb : b = a
      · subst hb; simp [List.find?]
      · have hbeq : (b == a) = false := by simp [hb]
        rw [List.find?, hbeq, ih]
        simp [hb, Ne.symm hb]

theorem lookup_changePairs_kept (cs : List FieldChange) (f : String)
    (hcs : ∀ c ∈ cs, c.field ∈ changeFields) (hf : f ∈ changeFields) :
    (changePairs cs).lookup (keptKeyOf f)
      = ((cs.find? (fun c => c.field == f)).map (fun c => c.keptValue)) := by
  have hinj : ∀ g1 ∈ changeFields, ∀ g2 ∈ changeFields,
      keptKeyOf g1 = keptKeyOf g2 → g1 = g2 := by decide
  have hkd : ∀ g1 ∈ changeFields, ∀ g2 ∈ changeFields,
      keptKeyOf g1 ≠ drpKeyOf g2 := by decide
  induction cs with
  | nil => simp [changePairs]
  | cons c cs ih =>
      have hcf : c.field ∈ changeFields := hcs c (by simp)
      by_cases hc : c.field = f
      · subst hc
        simp [changePairs, List.flatMap_cons, List.lookup]
      · have h1 : (keptKeyOf f == keptKeyOf c.field) = false := by
          simp only [beq_eq_false_iff_ne, ne_eq]
          intro hcontra
          exact hc ((hinj _ hcf _ hf hcontra.symm).symm).symm
        have h2 : (keptKeyOf f == drpKeyOf c.field) = false := by
          simp only [beq_eq_false_iff_ne, ne_eq]
          exact hkd _ hf _ hcf
        have h3 : (c.field == f) = false := by simp [hc]
        simp only [changePairs, List.flatMap_cons, List.cons_append, List.lookup,
          h1, h2, List.find?, h3]
        exact ih (fun c hc => hcs c (by simp [hc]))

theorem lookup_changePairs_drp (cs : List FieldChange) (f : String)
    (hcs : ∀ c ∈ cs, c.field ∈ changeFields) (hf : f ∈ changeFields) :
    (changePairs cs).lookup (drpKeyOf f)
      = ((cs.find? (fun c => c.field == f)).map (fun c => c.droppedValue)) := by
  have hinj : ∀ g1 ∈ changeFields, ∀ g2 ∈ changeFields,
      drpKeyOf g1 = drpKeyOf g2 → g1 = g2 := by decide
  have hkd : ∀ g1 ∈ changeFields, ∀ g2 ∈ changeFields,
      drpKeyOf g1 ≠ keptKeyOf g2 := by decide
  induction cs with
  | nil => simp [changePairs]
  | cons c cs ih =>
      have hcf : c.field ∈ changeFields := hcs c (by simp)
      by_cases hc : c.field = f
      · subst hc
        have h1 : (drpKeyOf c.field == keptKeyOf c.field) = false := by
          simp only [beq_eq_false_iff_ne, ne_eq]
          exact hkd _ hcf _ hcf
        simp [changePairs, List.flatMap_cons, List.lookup, h1]
      · have h1 : (drpKeyOf f == keptKeyOf c.field) = false := by
          simp only [beq_eq_false_iff_ne, ne_eq]
          exact hkd _ hf _ hcf
        have h2 : (drpKeyOf f == drpKeyOf c.field) = false := by
          simp only [beq_eq_false_iff_ne, ne_eq]
          intro hcontra
          exact hc ((hinj _ hcf _ hf hcontra.symm).symm).symm
        have h3 : (c.field == f) = false := by simp [hc]
        simp only [changePairs, List.flatMap_cons, List.cons_append, List.lookup,
          h1, h2, List.find?, h3]
        exact ih (fun c hc => hcs c (by simp [hc]))

/-- C7.  Diff minimality of the change logger: in the `LogEntry` built by
`logMergeDecision`, each compared field appears in the `changes` map — as
the key pair `kept<Field>`/`dropped<Field>`, with `_id` rendered as `Id` —
exactly when the kept and dropped records differ on it (so no entry pairs
equal values), and a decision whose two records agree on every compared
field yields an empty `changes` map. -/
theorem logentry_changes_minimal (d : MergeDecision) (now : String) :
    (∀ f ∈ changeFields,
        ((logEntryOf now d).changes.lookup (keptKeyOf f)
            = if fieldVal d.keptRecord f ≠ fieldVal d.droppedRecord f
              then some (fieldVal d.keptRecord f) else none)
        ∧ ((logEntryOf now d).changes.lookup (drpKeyOf f)
            = if fieldVal d.keptRecord f ≠ fieldVal d.droppedRecord f
              then some (fieldVal d.droppedRecord f) else none))
    ∧ ((∀ f ∈ changeFields, fieldVal d.keptRecord f = fieldVal d.droppedRecord f) →
        (logEntryOf now d).changes = [])
    ∧ keptKeyOf "_id" = "keptId" ∧ drpKeyOf "_id" = "droppedId" := by
  have hchanges : (logEntryOf now d).changes = changePairs (extractFieldChanges d) := by
    simpa [logEntryOf] using changesOf_eq_pairs d
  have hcs : ∀ c ∈ extractFieldChanges d, c.field ∈ changeFields := by
    intro c hc
    rw [extractFieldChanges_eq] at hc
    simp only [List.mem_map, List.mem_filter] at hc
    obtain ⟨f, ⟨hf, _⟩, rfl⟩ := hc
    exact hf
  have hfind : ∀ f ∈ changeFields,
      (extractFieldChanges d).find? (fun c => c.field == f)
        = if fieldVal d.keptRecord f ≠ fieldVal d.droppedRecord f
          then some { field := f, keptValue := fieldVal d.keptRecord f
                      droppedValue := fieldVal d.droppedRecord f
                      conflictType := d.conflictType, reason := d.reason }
          else none := by
    intro f hf
    rw [extractFieldChanges_eq, List.find?_map]
    have hcomp : ((fun c : FieldChange => c.field == f) ∘ (fun g =>
        ({ field := g, keptValue := fieldVal d.keptRecord g
           droppedValue := fieldVal d.droppedRecord g
           conflictType := d.conflictType, reason := d.reason } : FieldChange)))
        = fun g => g == f := rfl
    rw [hcomp, findBeq]
    by_cases hdiff : fieldVal d.keptRecord f ≠ fieldVal d.droppedRecord f
    · rw [if_pos hdiff]
      have : f ∈ changeFields.filter
          (fun g => decide (fieldVal d.keptRecord g ≠ fieldVal d.droppedRecord g)) := by
        simp only [List.mem_filter, decide_eq_true_eq]
        exact ⟨hf, hdiff⟩
      rw [if_pos this]
      rfl
    · rw [if_neg hdiff]
      have : f ∉ changeFields.filter
          (fun g => decide (fieldVal d.keptRecord g ≠ fieldVal d.droppedRecord g)) := by
        simp only [List.mem_filter, decide_eq_true_eq, not_and]
        intro _
        exact hdiff
      rw [if_neg this]
      rfl
  refine ⟨?_, ?_, rfl, rfl⟩
  · intro f hf
    constructor
    · rw [hchanges, lookup_changePairs_kept _ f hcs hf, hfind f hf]
      by_cases hdiff : fieldVal d.keptRecord f ≠ fieldVal d.droppedRecord f
      · rw [if_pos hdiff, if_pos hdiff]; rfl
      · rw [if_neg hdiff, if_neg hdiff]; rfl
    · rw [hchanges, lookup_changePairs_drp _ f hcs hf, hfind f hf]
      by_cases hdiff : fieldVal d.keptRecord f ≠ fieldVal d.droppedRecord f
      · rw [if_pos hdiff, if_pos hdiff]; rfl
      · rw [if_neg hdiff, if_neg hdiff]; rfl
  · intro hall
    have : extractFieldChanges d = [] := by
      rw [extractFieldChanges_eq]
      have : changeFields.filter
          (fun g => decide (fieldVal d.keptRecord g ≠ fieldVal d.droppedRecord g)) = [] := by
        rw [List.filter_eq_nil_iff]
        intro g hg
        simp only [decide_eq_true_eq, ne_eq, not_not]
        exact hall g hg
      rw [this]
      rfl
    rw [hchanges, this]
    rfl

/-- A concrete merge decision between two records agreeing on every logged
field (they differ only in identity). -/
def agreeingDecision : MergeDecision :=
  { keptRecord := toRec 0
      { _id := "x", email := "a", entryDate := "2014-05-07T17:30:20+00:00"
        firstName := some "Jane", lastName := none, address := none, parsedDate := some 5 }
    droppedRecord := toRec 1
      { _id := "x", email := "a", entryDate := "2014-05-07T17:30:20+00:00"
        firstName := some "Jane", lastName := none, address := none, parsedDate := some 5 }
    reason := MergeReason.last_in_list
    conflictType := ConflictType.id_conflict }

/-- Witness for C7: instantiating the diff-minimality theorem on a decision
between two records that agree on every compared field yields an empty
change map. -/
theorem logentry_changes_minimal_witness :
    (logEntryOf "2024-01-01T00:00:00Z" agreeingDecision).changes = [] :=
  (logentry_changes_minimal agreeingDecision "2024-01-01T00:00:00Z").2.1 (by decide)

theorem loggerInv_fresh (now : String) : LoggerInv (loggerFresh now) := by
  refine ⟨rfl, rfl, rfl⟩

theorem loggerInv_step (s : ChangeLoggerState) (op : LoggerOp) (h : LoggerInv s) :
    LoggerInv (applyLoggerOp s op) := by
  cases op with
  | clearOp now => exact loggerInv_fresh now
  | logOp now d =>
      obtain ⟨h1, h2, h3⟩ := h
      have hlen : (logEntryOf now d).changes.length = 2 * (extractFieldChanges d).length := by
        have : (logEntryOf now d).changes = changePairs (extractFieldChanges d) := by
          simpa [logEntryOf] using changesOf_eq_pairs d
        rw [this, changePairs_length]
      cases hd : d.conflictType with
      | id_conflict =>
          refine ⟨?_, ?_, ?_⟩ <;>
            simp [applyLoggerOp, logMergeDecision, updateSummary, hd, h1, h2, hlen] <;>
            omega
      | email_conflict =>
          refine ⟨?_, ?_, ?_⟩ <;>
            simp [applyLoggerOp, logMergeDecision, updateSummary, hd, h1, h2, hlen] <;>
            omega
      | cross_conflict =>
          refine ⟨?_, ?_, ?_⟩ <;>
            simp [applyLoggerOp, logMergeDecision, updateSummary, hd, h1, h2, hlen] <;>
            omega

theorem loggerInv_run (ops : List LoggerOp) :
    ∀ s : ChangeLoggerState, LoggerInv s → LoggerInv (runLogger s ops) := by
  induction ops with
  | nil => intro s h; exact h
  | cons op ops ih =>
      intro s h
      exact ih _ (loggerInv_step s op h)

/-- C9.  After any finite sequence of `clear`/`logMergeDecision` calls on a
fresh logger, the summary counters cohere: `totalConflicts` equals the
number of stored entries and equals `idConflicts + emailConflicts +
crossConflicts`, and `totalChanges` counts the changed fields recorded over
all entries (each changed field contributing exactly its `kept`/`dropped`
key pair, whence the factor 2); `clear` always restores the empty state
with all counters zero. -/
theorem logger_summary_coherent (t0 : String) (ops : List LoggerOp) :
    LoggerInv (runLogger (loggerFresh t0) ops)
    ∧ (∀ (s : ChangeLoggerState) (now : String),
        applyLoggerOp s (LoggerOp.clearOp now) = loggerFresh now) :=
  ⟨loggerInv_run ops _ (loggerInv_fresh t0), fun _ _ => rfl⟩

theorem mem_setAdd {α : Type} [DecidableEq α] (s : List α) (a x : α) :
    x ∈ setAdd s a ↔ x ∈ s ∨ x = a := by
  unfold setAdd
  by_cases h : a ∈ s
  · simp only [if_pos h, List.mem_append]
    constructor
    · exact Or.inl
    · rintro (hx | rfl)
      · exact hx
      · exact h
  · simp [if_neg h]

theorem mem_foldl_setAdd {α β : Type} [DecidableEq α] (f : β → α) (l : List β) :
    ∀ (init : List α) (x : α),
      x ∈ l.foldl (fun s b => setAdd s (f b)) init ↔ x ∈ init ∨ ∃ b ∈ l, f b = x := by
  induction l with
  | nil => intro init x; simp
  | cons b l ih =>
      intro init x
      rw [List.foldl_cons, ih, mem_setAdd]
      constructor
      · rintro ((hx | rfl) | ⟨c, hc, rfl⟩)
        · exact Or.inl hx
        · exact Or.inr ⟨b, by simp⟩
        · exact Or.inr ⟨c, by simp [hc]⟩
      · rintro (hx | ⟨c, hc, rfl⟩)
        · exact Or.inl (Or.inl hx)
        · rcases List.mem_cons.mp hc with rfl | hc
          · exact Or.inl (Or.inr rfl)
          · exact Or.inr ⟨c, hc, rfl⟩

theorem mem_keptListOf (decisions : List MergeDecision) (x : LeadRecord) :
    x ∈ keptListOf decisions ↔ ∃ d ∈ decisions, d.keptRecord = x := by
  unfold keptListOf
  rw [mem_foldl_setAdd (fun d : MergeDecision => d.keptRecord) decisions []]
  simp

theorem mem_dropListOf (decisions : List MergeDecision) (x : LeadRecord) :
    x ∈ dropListOf decisions ↔ ∃ d ∈ decisions, d.droppedRecord = x := by
  unfold dropListOf
  rw [mem_foldl_setAdd (fun d : MergeDecision => d.droppedRecord) decisions []]
  simp

theorem mem_foldl_keepAdd (dropList : List LeadRecord) (records : List LeadRecord) :
    ∀ (init : List LeadRecord) (x : LeadRecord),
      x ∈ records.foldl (fun s r => if r ∈ dropList then s else setAdd s r) init
        ↔ x ∈ init ∨ (x ∈ records ∧ x ∉ dropList) := by
  induction records with
  | nil => intro init x; simp
  | cons r records ih =>
      intro init x
      rw [List.foldl_cons]
      by_cases hr : r ∈ dropList
      · rw [if_pos hr, ih]
        constructor
        · rintro (hx | ⟨hx, hnd⟩)
          · exact Or.inl hx
          · exact Or.inr ⟨by simp [hx], hnd⟩
        · rintro (hx | ⟨hx, hnd⟩)
          · exact Or.inl hx
          · rcases List.mem_cons.mp hx with rfl | hx
            · exact absurd hr hnd
            · exact Or.inr ⟨hx, hnd⟩
      · rw [if_neg hr, ih, mem_setAdd]
        constructor
        · rintro ((hx | rfl) | ⟨hx, hnd⟩)
          · exact Or.inl hx
          · exact Or.inr ⟨by simp, hr⟩
          · exact Or.inr ⟨by simp [hx], hnd⟩
        · rintro (hx | ⟨hx, hnd⟩)
          · exact Or.inl (Or.inl hx)
          · rcases List.mem_cons.mp hx with rfl | hx
            · exact Or.inl (Or.inr rfl)
            · exact Or.inr ⟨hx, hnd⟩

theorem mem_keepListOf (records : List LeadRecord) (decisions : List MergeDecision)
    (x : LeadRecord) :
    x ∈ keepListOf records decisions
      ↔ (∃ d ∈ decisions, d.keptRecord = x)
        ∨ (x ∈ records ∧ ¬ ∃ d ∈ decisions, d.droppedRecord = x) := by
  unfold keepListOf
  rw [mem_foldl_keepAdd, mem_keptListOf]
  constructor
  · rintro (h | ⟨hx, hnd⟩)
    · exact Or.inl h
    · exact Or.inr ⟨hx, fun hc => hnd ((mem_dropListOf decisions x).mpr hc)⟩
  · rintro (h | ⟨hx, hnd⟩)
    · exact Or.inl h
    · exact Or.inr ⟨hx, fun hc => hnd ((mem_dropListOf decisions x).mp hc)⟩

theorem insertCmp_perm {α : Type} (cmp : α → α → Int) (a : α) (l : List α) :
    (insertCmp cmp a l).Perm (a :: l) := by
  induction l with
  | nil => exact List.Perm.refl _
  | cons b l ih =>
      unfold insertCmp
      by_cases h : cmp a b ≤ 0
      · rw [if_pos h]
      · rw [if_neg h]
        exact (ih.cons b).trans (List.Perm.swap a b l)

theorem insertionSortBy_perm {α : Type} (cmp : α → α → Int) (l : List α) :
    (insertionSortBy cmp l).Perm l := by
  induction l with
  | nil => exact List.Perm.refl _
  | cons a l ih =>
      unfold insertionSortBy
      exact (insertCmp_perm cmp a _).trans (ih.cons a)

theorem sortRecordsByDate_perm (records group : List LeadRecord) :
    (sortRecordsByDate records group).Perm group :=
  insertionSortBy_perm _ group

theorem indexAdd_sub {S : List LeadRecord} (m : List (String × List LeadRecord))
    (k : String) (r : LeadRecord)
    (hm : ∀ kv ∈ m, ∀ x ∈ kv.2, x ∈ S) (hr : r ∈ S) :
    ∀ kv ∈ indexAdd m k r, ∀ x ∈ kv.2, x ∈ S := by
  induction m with
  | nil =>
      intro kv hkv x hx
      simp only [indexAdd, List.mem_singleton] at hkv
      subst hkv
      simp only [List.mem_singleton] at hx
      subst hx
      exact hr
  | cons kv' m ih =>
      intro kv hkv x hx
      cases kv' with
      | mk k' rs =>
          unfold indexAdd at hkv
          by_cases hk : k' = k
          · rw [if_pos hk] at hkv
            rcases List.mem_cons.mp hkv with rfl | hkv
            · rcases List.mem_append.mp hx with hx | hx
              · exact hm (k', rs) (by simp) x hx
              · simp only [List.mem_singleton] at hx
                subst hx
                exact hr
            · exact hm kv (by simp [hkv]) x hx
          · rw [if_neg hk] at hkv
            rcases List.mem_cons.mp hkv with rfl | hkv
            · exact hm (k', rs) (by simp) x hx
            · exact ih (fun kv2 hkv2 => hm kv2 (by simp [hkv2])) kv hkv x hx

theorem buildIndex_sub (key : LeadRecord → String) (records : List LeadRecord) :
    ∀ kv ∈ buildIndex key records, ∀ x ∈ kv.2, x ∈ records := by
  have hgen : ∀ (l : List LeadRecord) (S : List LeadRecord)
      (m : List (String × List LeadRecord)),
      (∀ kv ∈ m, ∀ x ∈ kv.2, x ∈ S) → (∀ r ∈ l, r ∈ S) →
      ∀ kv ∈ l.foldl (fun m r => indexAdd m (key r) r) m, ∀ x ∈ kv.2, x ∈ S := by
    intro l
    induction l with
    | nil => intro S m hm _ kv hkv; exact hm kv hkv
    | cons r l ih =>
        intro S m hm hl kv hkv
        rw [List.foldl_cons] at hkv
        exact ih S _ (indexAdd_sub m (key r) r hm (hl r (by simp)))
          (fun r' hr' => hl r' (by simp [hr'])) kv hkv
  exact hgen records records [] (by simp) (fun r hr => hr)

theorem mem_dedupKeepFirst {α : Type} [DecidableEq α] (l : List α) (x : α) :
    x ∈ dedupKeepFirst l ↔ x ∈ l := by
  unfold dedupKeepFirst
  have h := mem_foldl_setAdd (fun a : α => a) l [] x
  simp only [List.not_mem_nil, false_or] at h
  rw [show l.foldl setAdd [] = l.foldl (fun s b => setAdd s b) [] from rfl, h]
  simp

theorem detectConflictsR_sub (records : List LeadRecord) :
    ∀ c ∈ detectConflictsR records, ∀ r ∈ c.records, r ∈ records := by
  intro c hc r hr
  unfold detectConflictsR detectConflictsFrom at hc
  rcases List.mem_append.mp hc with hc | hc <;>
  · simp only [List.mem_map, List.mem_filter] at hc
    obtain ⟨kv, ⟨hkv, _⟩, rfl⟩ := hc
    exact buildIndex_sub _ records kv hkv r hr

theorem crossInfos_sub (records : List LeadRecord)
    (groups : List (String × List LeadRecord)) :
    ∀ c ∈ crossInfos records groups, ∀ r ∈ c.records, r ∈ records := by
  unfold crossInfos
  have hgen : ∀ (gs : List (String × List LeadRecord)) (acc : List ConflictInfo),
      (∀ c ∈ acc, ∀ r ∈ c.records, r ∈ records) →
      ∀ c ∈ gs.foldl
          (fun acc kv =>
            match kv.2 with
            | [] => acc
            | primary :: _ =>
                let sameIdRecords := records.filter (fun r => r._id = primary._id)
                let sameEmailRecords := records.filter (fun r => r.email = primary.email)
                let allRelated := dedupKeepFirst (sameIdRecords ++ sameEmailRecords)
                acc ++ [{ type := ConflictType.cross_conflict
                          records := allRelated
                          conflictingIds := [primary._id]
                          conflictingEmails := some [primary.email]
                          details := some
                            { recordId := primary._id, email := primary.email
                              sameIdRecords := sameIdRecords.map (fun r => (r._id, r.email, r.entryDate))
                              sameEmailRecords := sameEmailRecords.map (fun r => (r._id, r.email, r.entryDate)) } }])
          acc,
        ∀ r ∈ c.records, r ∈ records := by
    intro gs
    induction gs with
    | nil => intro acc hacc c hc; exact hacc c hc
    | cons kv gs ih =>
        intro acc hacc c hc
        rw [List.foldl_cons] at hc
        cases hkv2 : kv.2 with
        | nil =>
            rw [hkv2] at hc
            exact ih acc hacc c hc
        | cons primary rest =>
            rw [hkv2] at hc
            refine ih _ ?_ c hc
            intro c' hc' r hr
            rcases List.mem_append.mp hc' with hc' | hc'
            · exact hacc c' hc' r hr
            · simp only [List.mem_singleton] at hc'
              subst hc'
              simp only at hr
              rcases List.mem_append.mp ((mem_dedupKeepFirst _ r).mp hr) with hx | hx <;>
                exact List.mem_of_mem_filter hx
  exact hgen groups [] (by simp)

theorem detectAllConflictsR_sub (records : List LeadRecord) :
    ∀ c ∈ detectAllConflictsR records, ∀ r ∈ c.records, r ∈ records := by
  intro c hc r hr
  unfold detectAllConflictsR detectAllConflictsCore at hc
  rcases List.mem_append.mp hc with hc | hc
  · exact detectConflictsR_sub records c hc r hr
  · exact crossInfos_sub records _ c hc r hr

theorem resolveConflictsAux_mem (records : List LeadRecord) :
    ∀ (conflicts : List ConflictInfo) (processed : List String)
      (d : MergeDecision), d ∈ resolveConflictsAux records conflicts processed →
      ∃ c ∈ conflicts, d.keptRecord ∈ c.records ∧ d.droppedRecord ∈ c.records := by
  intro conflicts
  induction conflicts with
  | nil => intro processed d hd; simp [resolveConflictsAux] at hd
  | cons c conflicts ih =>
      intro processed d hd
      unfold resolveConflictsAux at hd
      by_cases h1 : c.records.length > 1
      · rw [if_pos h1] at hd
        by_cases h2 : groupKeyOf c ∈ processed
        · rw [if_pos h2] at hd
          obtain ⟨c', hc', hmem⟩ := ih processed d hd
          exact ⟨c', by simp [hc'], hmem⟩
        · rw [if_neg h2] at hd
          rcases List.mem_append.mp hd with hd | hd
          · cases hsort : sortRecordsByDate records c.records with
            | nil => rw [hsort] at hd; simp at hd
            | cons kept dropped =>
                rw [hsort] at hd
                simp only [List.mem_map] at hd
                obtain ⟨dr, hdr, rfl⟩ := hd
                have hperm := sortRecordsByDate_perm records c.records
                rw [hsort] at hperm
                refine ⟨c, by simp, ?_, ?_⟩
                · exact hperm.mem_iff.mp (by simp)
                · exact hperm.mem_iff.mp (by simp [hdr])
          · obtain ⟨c', hc', hmem⟩ := ih _ d hd
            exact ⟨c', by simp [hc'], hmem⟩
      · rw [if_neg h1] at hd
        obtain ⟨c', hc', hmem⟩ := ih processed d hd
        exact ⟨c', by simp [hc'], hmem⟩

theorem decisions_records_mem (records : List LeadRecord)
    (conflicts : List ConflictInfo)
    (hsub : ∀ c ∈ conflicts, ∀ r ∈ c.records, r ∈ records) :
    ∀ d ∈ resolveConflictsR records conflicts,
      d.keptRecord ∈ records ∧ d.droppedRecord ∈ records := by
  intro d hd
  obtain ⟨c, hc, hk, hdr⟩ := resolveConflictsAux_mem records conflicts [] d hd
  exact ⟨hsub c hc _ hk, hsub c hc _ hdr⟩

theorem dedupPipeline_uniqueRecords_eq (input : List LeadRecordData) :
    (dedupPipeline input).uniqueRecords
      = (tagRecords input).filter
          (fun r => r ∈ keepListOf (tagRecords input) (pipelineDecisions input)) :=
  rfl

/-- C6.  Order preservation: `uniqueRecords` is a subsequence of the stored
record array (survivors keep the relative order supplied to `addRecords`);
every record named in no `MergeDecision` survives, and the kept record of
every `MergeDecision` survives. -/
theorem output_order_preserved (input : List LeadRecordData) :
    (dedupPipeline input).uniqueRecords.Sublist (tagRecords input)
    ∧ (∀ r ∈ tagRecords input,
        (∀ d ∈ pipelineDecisions input, d.keptRecord ≠ r ∧ d.droppedRecord ≠ r) →
          r ∈ (dedupPipeline input).uniqueRecords)
    ∧ (∀ d ∈ pipelineDecisions input,
        d.keptRecord ∈ (dedupPipeline input).uniqueRecords) := by
  rw [dedupPipeline_uniqueRecords_eq]
  refine ⟨List.filter_sublist _, ?_, ?_⟩
  · intro r hr hnone
    rw [List.mem_filter]
    refine ⟨hr, ?_⟩
    simp only [decide_eq_true_eq]
    rw [mem_keepListOf]
    refine Or.inr ⟨hr, ?_⟩
    rintro ⟨d, hd, hdrop⟩
    exact (hnone d hd).2 hdrop
  · intro d hd
    rw [List.mem_filter]
    have hmem : d.keptRecord ∈ tagRecords input ∧ d.droppedRecord ∈ tagRecords input := by
      refine decisions_records_mem (tagRecords input) (detectAllConflictsR (tagRecords input))
        (detectAllConflictsR_sub (tagRecords input)) d ?_
      exact hd
    refine ⟨hmem.1, ?_⟩
    simp only [decide_eq_true_eq]
    rw [mem_keepListOf]
    exact Or.inl ⟨d, hd, rfl⟩

/-- A two-record input with an id collision, used to exercise the order
preservation theorem at a concrete input. -/
def orderWitnessInput : List LeadRecordData :=
  [ { _id := "w1", email := "w1@x", entryDate := "2014-05-07T17:30:01+00:00"
      firstName := none, lastName := none, address := none, parsedDate := some 1 }
  , { _id := "w0", email := "w0@x", entryDate := "2014-05-07T17:30:02+00:00"
      firstName := none, lastName := none, address := none, parsedDate := some 2 }
  , { _id := "w1", email := "w2@x", entryDate := "2014-05-07T17:30:03+00:00"
      firstName := none, lastName := none, address := none, parsedDate := some 3 } ]

/-- Witness for C6 at `orderWitnessInput`: the untouched record (position 1)
survives, and the kept record of the first decision survives. -/
theorem output_order_preserved_witness :
    (dedupPipeline orderWitnessInput).uniqueRecords.Sublist (tagRecords orderWitnessInput)
    ∧ toRec 1 { _id := "w0", email := "w0@x", entryDate := "2014-05-07T17:30:02+00:00"
                firstName := none, lastName := none, address := none, parsedDate := some 2 }
        ∈ (dedupPipeline orderWitnessInput).uniqueRecords :=
  ⟨(output_order_preserved orderWitnessInput).1,
   (output_order_preserved orderWitnessInput).2.1 _ (by decide) (by decide)⟩

set_option maxHeartbeats 1600000 in
/-- C5 (Scenario E).  For an input of exactly two records sharing an `_id`,
where the first record's `entryDate` failed to parse and the second's
parsed to a valid instant, `deduplicate()` keeps the second record and
drops the first: `compareByDate` returns 0 against an unparseable date, so
the list-position tie-break decides, preferring the later record
(`reason = last_in_list`). -/
theorem scenario_e_keeps_later_valid (d1 d2 : LeadRecordData) (t : Int)
    (hid : d1._id = d2._id) (h1 : d1.parsedDate = none) (h2 : d2.parsedDate = some t) :
    (dedupPipeline [d1, d2]).uniqueRecords = [toRec 1 d2]
    ∧ (pipelineDecisions [d1, d2]).map
        (fun d => (d.keptRecord, d.droppedRecord, d.reason))
      = [(toRec 1 d2, toRec 0 d1, MergeReason.last_in_list)] := by
  have hne : toRec 1 d2 ≠ toRec 0 d1 := toRec_ne_of_tag (by decide) d2 d1
  have hne' : toRec 0 d1 ≠ toRec 1 d2 := toRec_ne_of_tag (by decide) d1 d2
  have hidIdx : buildIndex (fun r => r._id) [toRec 0 d1, toRec 1 d2]
      = [(d2._id, [toRec 0 d1, toRec 1 d2])] := by
    simp [buildIndex, indexAdd, hid]
  have hsort : sortRecordsByDate [toRec 0 d1, toRec 1 d2] [toRec 0 d1, toRec 1 d2]
      = [toRec 1 d2, toRec 0 d1] := by
    simp [sortRecordsByDate, insertionSortBy, insertCmp, sortCmp,
      LeadRecord.compareByDate, h1, jsIndexOf, List.findIdx?_cons, hne, hne']
  have hfinal :
      pipelineDecisions [d1, d2] =
        [ { keptRecord := toRec 1 d2, droppedRecord := toRec 0 d1
            reason := MergeReason.last_in_list, conflictType := ConflictType.id_conflict } ] →
      (dedupPipeline [d1, d2]).uniqueRecords = [toRec 1 d2]
      ∧ (pipelineDecisions [d1, d2]).map
          (fun d => (d.keptRecord, d.droppedRecord, d.reason))
        = [(toRec 1 d2, toRec 0 d1, MergeReason.last_in_list)] := by
    intro hpd
    constructor
    · have heq : (dedupPipeline [d1, d2]).uniqueRecords
          = (tagRecords [d1, d2]).filter
              (fun r => r ∈ keepListOf (tagRecords [d1, d2]) (pipelineDecisions [d1, d2])) := rfl
      rw [heq, hpd]
      show ([toRec 0 d1, toRec 1 d2]).filter
          (fun r => r ∈ keepListOf [toRec 0 d1, toRec 1 d2] _) = _
      simp [keepListOf, keptListOf, dropListOf, setAdd, hne, hne']
    · rw [hpd]
      rfl
  by_cases hm : d1.email = d2.email
  case pos =>
    have hemIdx : buildIndex (fun r => r.email) [toRec 0 d1, toRec 1 d2]
        = [(d2.email, [toRec 0 d1, toRec 1 d2])] := by
      simp [buildIndex, indexAdd, hm]
    have hconf : detectConflictsR [toRec 0 d1, toRec 1 d2]
        = [ { type := ConflictType.id_conflict, records := [toRec 0 d1, toRec 1 d2]
              conflictingIds := [d2._id, d2._id], conflictingEmails := none, details := none }
          , { type := ConflictType.email_conflict, records := [toRec 0 d1, toRec 1 d2]
              conflictingIds := [d2._id, d2._id], conflictingEmails := none, details := none } ] := by
      simp [detectConflictsR, detectConflictsFrom, hidIdx, hemIdx, hid]
    have hmaps : buildConflictMaps (detectConflictsR [toRec 0 d1, toRec 1 d2])
        = ([(d2._id, [ConflictType.id_conflict, ConflictType.email_conflict])],
           [(d2.email, [ConflictType.id_conflict, ConflictType.email_conflict])]) := by
      rw [hconf]
      simp [buildConflictMaps, conflictMapsStep, mapTypeAdd, setAdd, hid, hm]
    have hcross : buildCrossGroups [toRec 0 d1, toRec 1 d2]
        [(d2._id, [ConflictType.id_conflict, ConflictType.email_conflict])]
        [(d2.email, [ConflictType.id_conflict, ConflictType.email_conflict])]
        = [("cross_" ++ d2._id ++ "_" ++ d2.email, [toRec 0 d1])] := by
      simp [buildCrossGroups, indexAdd, hid, hm]
    have hinfos : crossInfos [toRec 0 d1, toRec 1 d2]
        [("cross_" ++ d2._id ++ "_" ++ d2.email, [toRec 0 d1])]
        = [ { type := ConflictType.cross_conflict, records := [toRec 0 d1, toRec 1 d2]
              conflictingIds := [d2._id], conflictingEmails := some [d2.email]
              details := some
                { recordId := d2._id, email := d2.email
                  sameIdRecords := [(d2._id, d2.email, d1.entryDate), (d2._id, d2.email, d2.entryDate)]
                  sameEmailRecords := [(d2._id, d2.email, d1.entryDate), (d2._id, d2.email, d2.entryDate)] } } ] := by
      simp [crossInfos, dedupKeepFirst, setAdd, hid, hm, hne, hne']
    have hall : detectAllConflictsR [toRec 0 d1, toRec 1 d2]
        = [ { type := ConflictType.id_conflict, records := [toRec 0 d1, toRec 1 d2]
              conflictingIds := [d2._id, d2._id], conflictingEmails := none, details := none }
          , { type := ConflictType.email_conflict, records := [toRec 0 d1, toRec 1 d2]
              conflictingIds := [d2._id, d2._id], conflictingEmails := none, details := none }
          , { type := ConflictType.cross_conflict, records := [toRec 0 d1, toRec 1 d2]
              conflictingIds := [d2._id], conflictingEmails := some [d2.email]
              details := some
                { recordId := d2._id, email := d2.email
                  sameIdRecords := [(d2._id, d2.email, d1.entryDate), (d2._id, d2.email, d2.entryDate)]
                  sameEmailRecords := [(d2._id, d2.email, d1.entryDate), (d2._id, d2.email, d2.entryDate)] } } ] := by
      unfold detectAllConflictsR detectAllConflictsCore
      rw [hconf] at hmaps ⊢
      simp [hmaps, hcross, hinfos]
    have hdec : pipelineDecisions [d1, d2]
        = [ { keptRecord := toRec 1 d2, droppedRecord := toRec 0 d1
              reason := MergeReason.last_in_list, conflictType := ConflictType.id_conflict } ] := by
      have hpd0 : pipelineDecisions [d1, d2]
          = resolveConflictsR [toRec 0 d1, toRec 1 d2]
              (detectAllConflictsR [toRec 0 d1, toRec 1 d2]) := rfl
      rw [hpd0, hall]
      unfold resolveConflictsR
      simp [resolveConflictsAux, groupKeyOf, hsort, determineMergeReason,
        LeadRecord.compareByDate, h2, h1, hid]
    exact hfinal hdec
  case neg =>
    have hm' : ¬ (d2.email = d1.email) := fun h => hm h.symm
    have hemIdx : buildIndex (fun r => r.email) [toRec 0 d1, toRec 1 d2]
        = [(d1.email, [toRec 0 d1]), (d2.email, [toRec 1 d2])] := by
      simp [buildIndex, indexAdd, hm]
    have hconf : detectConflictsR [toRec 0 d1, toRec 1 d2]
        = [ { type := ConflictType.id_conflict, records := [toRec 0 d1, toRec 1 d2]
              conflictingIds := [d2._id, d2._id], conflictingEmails := none, details := none } ] := by
      simp [detectConflictsR, detectConflictsFrom, hidIdx, hemIdx, hid]
    have hmaps : buildConflictMaps (detectConflictsR [toRec 0 d1, toRec 1 d2])
        = ([(d2._id, [ConflictType.id_conflict])],
           [(d1.email, [ConflictType.id_conflict]), (d2.email, [ConflictType.id_conflict])]) := by
      rw [hconf]
      simp [buildConflictMaps, conflictMapsStep, mapTypeAdd, setAdd, hid, hm]
    have hcross : buildCrossGroups [toRec 0 d1, toRec 1 d2]
        [(d2._id, [ConflictType.id_conflict])]
        [(d1.email, [ConflictType.id_conflict]), (d2.email, [ConflictType.id_conflict])]
        = [("cross_" ++ d2._id ++ "_" ++ d1.email, [toRec 0 d1])] := by
      simp [buildCrossGroups, indexAdd, hid]
    have hinfos : crossInfos [toRec 0 d1, toRec 1 d2]
        [("cross_" ++ d2._id ++ "_" ++ d1.email, [toRec 0 d1])]
        = [ { type := ConflictType.cross_conflict, records := [toRec 0 d1, toRec 1 d2]
              conflictingIds := [d2._id], conflictingEmails := some [d1.email]
              details := some
                { recordId := d2._id, email := d1.email
                  sameIdRecords := [(d2._id, d1.email, d1.entryDate), (d2._id, d2.email, d2.entryDate)]
                  sameEmailRecords := [(d2._id, d1.email, d1.entryDate)] } } ] := by
      simp [crossInfos, dedupKeepFirst, setAdd, hid, hm, hm', hne, hne']
    have hall : detectAllConflictsR [toRec 0 d1, toRec 1 d2]
        = [ { type := ConflictType.id_conflict, records := [toRec 0 d1, toRec 1 d2]
              conflictingIds := [d2._id, d2._id], conflictingEmails := none, details := none }
          , { type := ConflictType.cross_conflict, records := [toRec 0 d1, toRec 1 d2]
              conflictingIds := [d2._id], conflictingEmails := some [d1.email]
              details := some
                { recordId := d2._id, email := d1.email
                  sameIdRecords := [(d2._id, d1.email, d1.entryDate), (d2._id, d2.email, d2.entryDate)]
                  sameEmailRecords := [(d2._id, d1.email, d1.entryDate)] } } ] := by
      unfold detectAllConflictsR detectAllConflictsCore
      rw [hconf] at hmaps ⊢
      simp [hmaps, hcross, hinfos]
    have hdec : pipelineDecisions [d1, d2]
        = [ { keptRecord := toRec 1 d2, droppedRecord := toRec 0 d1
              reason := MergeReason.last_in_list, conflictType := ConflictType.id_conflict } ] := by
      have hpd0 : pipelineDecisions [d1, d2]
          = resolveConflictsR [toRec 0 d1, toRec 1 d2]
              (detectAllConflictsR [toRec 0 d1, toRec 1 d2]) := rfl
      rw [hpd0, hall]
      unfold resolveConflictsR
      simp [resolveConflictsAux, groupKeyOf, hsort, determineMergeReason,
        LeadRecord.compareByDate, h2, h1, hid]
    exact hfinal hdec

/-- A record whose recency string does not parse. -/
def unparseableFirst : LeadRecordData :=
  { _id := "jkj238238jdsnfsj23", email := "bill@microsoft.com", entryDate := "not-a-date"
    firstName := none, lastName := none, address := none, parsedDate := none }

/-- A record with the same `_id` and a valid recency, placed second. -/
def parseableSecond : LeadRecordData :=
  { _id := "jkj238238jdsnfsj23", email := "bog@bar.com", entryDate := "2014-05-07T17:30:20+00:00"
    firstName := none, lastName := none, address := none, parsedDate := some 1399483820000 }

/-- Witness for C5 at a concrete pair of records. -/
theorem scenario_e_witness :
    unparseableFirst.parsedDate = none
    ∧ parseableSecond.parsedDate = some 1399483820000
    ∧ unparseableFirst._id = parseableSecond._id
    ∧ (dedupPipeline [unparseableFirst, parseableSecond]).uniqueRecords
        = [toRec 1 parseableSecond] :=
  ⟨rfl, rfl, rfl,
   (scenario_e_keeps_later_valid unparseableFirst parseableSecond 1399483820000
      (by decide) (by decide) (by decide)).1⟩

/-- The invariant tying an engine index under construction to the prefix of
records already folded in: every bucket is the filter of the seen records
by its key, every seen record has a bucket, every bucket key comes from a
seen record, and keys are unique. -/
def IndexInv (key : LeadRecord → String) (seen : List LeadRecord)
    (m : List (String × List LeadRecord)) : Prop :=
  (∀ kb ∈ m, kb.2 = seen.filter (fun r => key r = kb.1))
  ∧ (∀ r ∈ seen, ∃ b, (key r, b) ∈ m)
  ∧ (∀ kb ∈ m, ∃ r ∈ seen, key r = kb.1)
  ∧ (m.map Prod.fst).Nodup

theorem lookup_isSome_of_mem {β : Type} :
    ∀ (m : List (String × β)) (k : String) (v : β),
      (k, v) ∈ m → (m.lookup k).isSome := by
  intro m
  induction m with
  | nil => intro k v h; simp at h
  | cons kv m ih =>
      intro k v h
      cases kv with
      | mk k' v' =>
          by_cases hk : k = k'
          · subst hk; simp [List.lookup]
          · have hbeq : (k == k') = false := by simp [hk]
            simp only [List.lookup, hbeq]
            rcases List.mem_cons.mp h with heq | h
            · exact absurd (congrArg Prod.fst heq) hk
            · exact ih k v h

theorem mem_of_lookup_eq_some {β : Type} :
    ∀ (m : List (String × β)) (k : String) (v : β),
      m.lookup k = some v → (k, v) ∈ m := by
  intro m
  induction m with
  | nil => intro k v h; simp [List.lookup] at h
  | cons kv m ih =>
      intro k v h
      cases kv with
      | mk k' v' =>
          by_cases hk : k = k'
          · subst hk
            simp only [List.lookup, beq_self_eq_true] at h
            exact List.mem_cons.mpr (Or.inl (by rw [Option.some.injEq] at h; rw [h]))
          · have hbeq : (k == k') = false := by simp [hk]
            simp only [List.lookup, hbeq] at h
            exact List.mem_cons_of_mem _ (ih k v h)

theorem lookup_eq_none_iff {β : Type} :
    ∀ (m : List (String × β)) (k : String),
      m.lookup k = none ↔ k ∉ m.map Prod.fst := by
  intro m
  induction m with
  | nil => intro k; simp [List.lookup]
  | cons kv m ih =>
      intro k
      cases kv with
      | mk k' v' =>
          by_cases hk : k = k'
          · subst hk; simp [List.lookup]
          · have hbeq : (k == k') = false := by simp [hk]
            simp only [List.lookup, hbeq, List.map_cons, List.mem_cons, not_or]
            rw [ih]
            simp [hk]

theorem indexAdd_mem_cases :
    ∀ (m : List (String × List LeadRecord)) (k0 : String) (r : LeadRecord),
      (m.map Prod.fst).Nodup →
      ∀ kb ∈ indexAdd m k0 r,
        (kb.1 ≠ k0 ∧ kb ∈ m)
        ∨ (kb.1 = k0 ∧ kb.2 = ((m.lookup k0).getD []) ++ [r]) := by
  intro m
  induction m with
  | nil =>
      intro k0 r _ kb hkb
      simp only [indexAdd, List.mem_singleton] at hkb
      subst hkb
      simp [List.lookup]
  | cons kv m ih =>
      intro k0 r hnodup kb hkb
      cases kv with
      | mk k' v' =>
          simp only [List.map_cons, List.nodup_cons] at hnodup
          by_cases hk : k' = k0
          · subst hk
            rw [indexAdd, if_pos rfl] at hkb
            rcases List.mem_cons.mp hkb with rfl | hkb
            · refine Or.inr ⟨rfl, ?_⟩
              simp [List.lookup]
            · refine Or.inl ⟨?_, List.mem_cons_of_mem _ hkb⟩
              intro hcontra
              exact hnodup.1 (by
                rw [← hcontra]
                exact List.mem_map.mpr ⟨kb, hkb, rfl⟩)
          · rw [indexAdd, if_neg hk] at hkb
            rcases List.mem_cons.mp hkb with rfl | hkb
            · exact Or.inl ⟨hk, by simp⟩
            · rcases ih k0 r hnodup.2 kb hkb with ⟨hne, hmem⟩ | ⟨heq, hval⟩
              · exact Or.inl ⟨hne, List.mem_cons_of_mem _ hmem⟩
              · refine Or.inr ⟨heq, ?_⟩
                have hbeq : (k0 == k') = false := by
                  simp only [beq_eq_false_iff_ne, ne_eq]
                  exact fun hcontra => hk hcontra.symm
                rw [hval]
                simp [List.lookup, hbeq]

theorem indexAdd_mem_preserved :
    ∀ (m : List (String × List LeadRecord)) (k0 : String) (r : LeadRecord)
      (kb : String × List LeadRecord),
      kb ∈ m → kb.1 ≠ k0 → kb ∈ indexAdd m k0 r := by
  intro m
  induction m with
  | nil => intro k0 r kb h _; simp at h
  | cons kv m ih =>
      intro k0 r kb hkb hne
      cases kv with
      | mk k' v' =>
          by_cases hk : k' = k0
          · subst hk
            rw [indexAdd, if_pos rfl]
            rcases List.mem_cons.mp hkb with rfl | hkb
            · exact absurd rfl hne
            · exact List.mem_cons_of_mem _ hkb
          · rw [indexAdd, if_neg hk]
            rcases List.mem_cons.mp hkb with rfl | hkb
            · exact List.mem_cons_self _ _
            · exact List.mem_cons_of_mem _ (ih k0 r kb hkb hne)

theorem indexAdd_exists :
    ∀ (m : List (String × List LeadRecord)) (k0 : String) (r : LeadRecord),
      ∃ b, (k0, b) ∈ indexAdd m k0 r := by
  intro m
  induction m with
  | nil => intro k0 r; exact ⟨[r], by simp [indexAdd]⟩
  | cons kv m ih =>
      intro k0 r
      cases kv with
      | mk k' v' =>
          by_cases hk : k' = k0
          · subst hk
            rw [indexAdd, if_pos rfl]
            exact ⟨v' ++ [r], List.mem_cons_self _ _⟩
          · rw [indexAdd, if_neg hk]
            obtain ⟨b, hb⟩ := ih k0 r
            exact ⟨b, List.mem_cons_of_mem _ hb⟩

theorem indexAdd_keys :
    ∀ (m : List (String × List LeadRecord)) (k0 : String) (r : LeadRecord),
      (indexAdd m k0 r).map Prod.fst
        = if k0 ∈ m.map Prod.fst then m.map Prod.fst else m.map Prod.fst ++ [k0] := by
  intro m
  induction m with
  | nil => intro k0 r; simp [indexAdd]
  | cons kv m ih =>
      intro k0 r
      cases kv with
      | mk k' v' =>
          by_cases hk : k' = k0
          · subst hk
            rw [indexAdd, if_pos rfl]
            simp
          · rw [indexAdd, if_neg hk]
            simp only [List.map_cons, ih k0 r]
            by_cases hmem : k0 ∈ m.map Prod.fst
            · rw [if_pos hmem, if_pos (by simp [hmem])]
            · rw [if_neg hmem, if_neg (by simp [hmem, Ne.symm hk]), List.cons_append]

theorem indexAdd_inv (key : LeadRecord → String) (seen : List LeadRecord)
    (m : List (String × List LeadRecord)) (x : LeadRecord)
    (h : IndexInv key seen m) :
    IndexInv key (seen ++ [x]) (indexAdd m (key x) x) := by
  obtain ⟨h1, h2, h3, h4⟩ := h
  refine ⟨?_, ?_, ?_, ?_⟩
  · intro kb hkb
    rcases indexAdd_mem_cases m (key x) x h4 kb hkb with ⟨hne, hmem⟩ | ⟨heq, hval⟩
    · rw [h1 kb hmem, List.filter_append]
      have hx : [x].filter (fun r => key r = kb.1) = [] := by
        simp only [List.filter_eq_nil_iff, List.mem_singleton, decide_eq_true_eq]
        rintro r rfl hcontra
        exact hne hcontra.symm
      rw [hx, List.append_nil]
    · rw [hval, List.filter_append]
      have hx : [x].filter (fun r => key r = kb.1) = [x] := by
        simp [heq.symm]
      rw [hx]
      cases hlk : m.lookup (key x) with
      | some b0 =>
          have hmem := mem_of_lookup_eq_some m (key x) b0 hlk
          have hb0 := h1 (key x, b0) hmem
          simp only at hb0
          simp [heq, hb0]
      | none =>
          have hfilter : seen.filter (fun r => key r = kb.1) = [] := by
            rw [List.filter_eq_nil_iff]
            intro r hr
            simp only [decide_eq_true_eq]
            intro hcontra
            obtain ⟨b, hb⟩ := h2 r hr
            rw [hcontra, heq] at hb
            have : key x ∈ m.map Prod.fst := List.mem_map.mpr ⟨(key x, b), hb, rfl⟩
            exact ((lookup_eq_none_iff m (key x)).mp hlk) this
          simp [hfilter]
  · intro r hr
    rcases List.mem_append.mp hr with hr | hr
    · obtain ⟨b, hb⟩ := h2 r hr
      by_cases hk : key r = key x
      · rw [hk]
        exact indexAdd_exists m (key x) x
      · exact ⟨b, indexAdd_mem_preserved m (key x) x (key r, b) hb hk⟩
    · simp only [List.mem_singleton] at hr
      subst hr
      exact indexAdd_exists m (key r) r
  · intro kb hkb
    rcases indexAdd_mem_cases m (key x) x h4 kb hkb with ⟨_, hmem⟩ | ⟨heq, _⟩
    · obtain ⟨r, hr, hkey⟩ := h3 kb hmem
      exact ⟨r, List.mem_append_left _ hr, hkey⟩
    · exact ⟨x, List.mem_append_right _ (by simp), heq.symm⟩
  · rw [indexAdd_keys]
    by_cases hmem : key x ∈ m.map Prod.fst
    · rw [if_pos hmem]; exact h4
    · rw [if_neg hmem]
      simp [List.nodup_append, h4, hmem]

theorem buildIndex_inv (key : LeadRecord → String) (rs : List LeadRecord) :
    IndexInv key rs (buildIndex key rs) := by
  have hgen : ∀ (rest seen : List LeadRecord) (m : List (String × List LeadRecord)),
      IndexInv key seen m →
      IndexInv key (seen ++ rest) (rest.foldl (fun m r => indexAdd m (key r) r) m) := by
    intro rest
    induction rest with
    | nil => intro seen m h; simpa using h
    | cons x rest ih =>
        intro seen m h
        rw [List.foldl_cons]
        have := ih (seen ++ [x]) _ (indexAdd_inv key seen m x h)
        simpa using this
  have hinit : IndexInv key [] [] := by
    refine ⟨?_, ?_, ?_, ?_⟩ <;> simp [IndexInv]
  have := hgen rs [] [] hinit
  simpa [buildIndex] using this

theorem buildIndex_bucket_eq (key : LeadRecord → String) (rs : List LeadRecord)
    (k : String) (b : List LeadRecord) (h : (k, b) ∈ buildIndex key rs) :
    b = rs.filter (fun r => key r = k) :=
  (buildIndex_inv key rs).1 (k, b) h

theorem buildIndex_bucket_exists (key : LeadRecord → String) (rs : List LeadRecord)
    (r : LeadRecord) (h : r ∈ rs) : ∃ b, (key r, b) ∈ buildIndex key rs :=
  (buildIndex_inv key rs).2.1 r h

theorem detectConflictsR_types (rs : List LeadRecord) :
    ∀ c ∈ detectConflictsR rs,
      c.type = ConflictType.id_conflict ∨ c.type = ConflictType.email_conflict := by
  intro c hc
  unfold detectConflictsR detectConflictsFrom at hc
  rcases List.mem_append.mp hc with hc | hc <;>
    obtain ⟨kv, _, rfl⟩ := List.mem_map.mp hc
  · exact Or.inl rfl
  · exact Or.inr rfl

theorem detectConflictsR_id_records (rs : List LeadRecord) :
    ∀ c ∈ detectConflictsR rs, c.type = ConflictType.id_conflict →
      ∃ k, c.records = rs.filter (fun r => r._id = k) ∧ c.records.length > 1 := by
  intro c hc htype
  unfold detectConflictsR detectConflictsFrom at hc
  rcases List.mem_append.mp hc with hc | hc
  · obtain ⟨kv, hkv, rfl⟩ := List.mem_map.mp hc
    obtain ⟨hmem, hlen⟩ := List.mem_filter.mp hkv
    refine ⟨kv.1, ?_, by simpa using hlen⟩
    simp only
    exact buildIndex_bucket_eq _ rs kv.1 kv.2 (by
      cases kv; exact hmem)
  · obtain ⟨kv, _, rfl⟩ := List.mem_map.mp hc
    simp at htype

theorem detectConflictsR_id_mem (rs : List LeadRecord) (k : String)
    (b : List LeadRecord) (hb : (k, b) ∈ buildIndex (fun r => r._id) rs)
    (hlen : b.length > 1) :
    ({ type := ConflictType.id_conflict, records := b
       conflictingIds := b.map (fun r => r._id)
       conflictingEmails := none, details := none } : ConflictInfo)
      ∈ detectConflictsR rs := by
  unfold detectConflictsR detectConflictsFrom
  refine List.mem_append_left _ (List.mem_map.mpr ⟨(k, b), ?_, rfl⟩)
  exact List.mem_filter.mpr ⟨hb, by simpa using hlen⟩

theorem mapTypeAdd_mem_cases :
    ∀ (m : List (String × List ConflictType)) (k0 : String) (t0 : ConflictType),
      ∀ kb ∈ mapTypeAdd m k0 t0, ∀ t ∈ kb.2,
        (∃ kb' ∈ m, kb'.1 = kb.1 ∧ t ∈ kb'.2) ∨ (t = t0 ∧ kb.1 = k0) := by
  intro m
  induction m with
  | nil =>
      intro k0 t0 kb hkb t ht
      simp only [mapTypeAdd, List.mem_singleton] at hkb
      subst hkb
      simp only [List.mem_singleton] at ht
      exact Or.inr ⟨ht, rfl⟩
  | cons kv m ih =>
      intro k0 t0 kb hkb t ht
      cases kv with
      | mk k' ts' =>
          unfold mapTypeAdd at hkb
          by_cases hk : k' = k0
          · rw [if_pos hk] at hkb
            rcases List.mem_cons.mp hkb with rfl | hkb
            · simp only at ht
              rcases (mem_setAdd ts' t0 t).mp ht with ht | rfl
              · exact Or.inl ⟨(k', ts'), by simp, rfl, ht⟩
              · exact Or.inr ⟨rfl, hk⟩
            · exact Or.inl ⟨kb, by simp [hkb], rfl, ht⟩
          · rw [if_neg hk] at hkb
            rcases List.mem_cons.mp hkb with heq | hkb
            · exact Or.inl ⟨kb, by simp [heq], rfl, ht⟩
            · rcases ih k0 t0 kb hkb t ht with ⟨kb', hkb', hkey, ht'⟩ | hright
              · exact Or.inl ⟨kb', by simp [hkb'], hkey, ht'⟩
              · exact Or.inr hright

theorem mapTypeAdd_establish :
    ∀ (m : List (String × List ConflictType)) (k0 : String) (t0 : ConflictType),
      ∃ ts, (k0, ts) ∈ mapTypeAdd m k0 t0 ∧ t0 ∈ ts := by
  intro m
  induction m with
  | nil => intro k0 t0; exact ⟨[t0], by simp [mapTypeAdd]⟩
  | cons kv m ih =>
      intro k0 t0
      cases kv with
      | mk k' ts' =>
          by_cases hk : k' = k0
          · subst hk
            rw [mapTypeAdd, if_pos rfl]
            exact ⟨setAdd ts' t0, List.mem_cons_self _ _, (mem_setAdd ts' t0 t0).mpr (Or.inr rfl)⟩
          · rw [mapTypeAdd, if_neg hk]
            obtain ⟨ts, hts, ht⟩ := ih k0 t0
            exact ⟨ts, List.mem_cons_of_mem _ hts, ht⟩

theorem mapTypeAdd_preserve :
    ∀ (m : List (String × List ConflictType)) (k0 : String) (t0 : ConflictType)
      (k : String) (t : ConflictType),
      (∃ ts, (k, ts) ∈ m ∧ t ∈ ts) →
      ∃ ts', (k, ts') ∈ mapTypeAdd m k0 t0 ∧ t ∈ ts' := by
  intro m
  induction m with
  | nil => intro k0 t0 k t ⟨ts, hts, _⟩; simp at hts
  | cons kv m ih =>
      intro k0 t0 k t ⟨ts, hts, ht⟩
      cases kv with
      | mk k' ts' =>
          by_cases hk : k' = k0
          · subst hk
            rw [mapTypeAdd, if_pos rfl]
            rcases List.mem_cons.mp hts with heq | hts
            · have hk1 : k = k' := congrArg Prod.fst heq
              have hk2 : ts = ts' := congrArg Prod.snd heq
              subst hk1
              exact ⟨setAdd ts' t0, List.mem_cons_self _ _,
                (mem_setAdd ts' t0 t).mpr (Or.inl (hk2 ▸ ht))⟩
            · exact ⟨ts, List.mem_cons_of_mem _ hts, ht⟩
          · rw [mapTypeAdd, if_neg hk]
            rcases List.mem_cons.mp hts with heq | hts
            · exact ⟨ts, heq ▸ List.mem_cons_self _ _, ht⟩
            · obtain ⟨ts2, hts2, ht2⟩ := ih k0 t0 k t ⟨ts, hts, ht⟩
              exact ⟨ts2, List.mem_cons_of_mem _ hts2, ht2⟩

theorem innerFold_cases (c : ConflictInfo) :
    ∀ (rs : List LeadRecord)
      (maps : List (String × List ConflictType) × List (String × List ConflictType)),
      (∀ kb ∈ (rs.foldl (conflictMapsStep c) maps).1, ∀ t ∈ kb.2,
        (∃ kb' ∈ maps.1, kb'.1 = kb.1 ∧ t ∈ kb'.2)
        ∨ (t = c.type ∧ ∃ r ∈ rs, r._id = kb.1)) := by
  intro rs
  induction rs with
  | nil =>
      intro maps kb hkb t ht
      exact Or.inl ⟨kb, hkb, rfl, ht⟩
  | cons r rs ih =>
      intro maps kb hkb t ht
      rw [List.foldl_cons] at hkb
      rcases ih (conflictMapsStep c maps r) kb hkb t ht with ⟨kb', hkb', hkey, ht'⟩ | ⟨htype, r', hr', hkey⟩
      · rcases mapTypeAdd_mem_cases maps.1 r._id c.type kb' hkb' t ht'
            with ⟨kb'', hkb'', hkey'', ht''⟩ | ⟨htype, hkey'⟩
        · exact Or.inl ⟨kb'', hkb'', hkey''.trans hkey, ht''⟩
        · exact Or.inr ⟨htype, r, by simp, hkey' ▸ hkey⟩
      · exact Or.inr ⟨htype, r', by simp [hr'], hkey⟩

theorem innerFold_preserve (c : ConflictInfo) :
    ∀ (rs : List LeadRecord)
      (maps : List (String × List ConflictType) × List (String × List ConflictType))
      (k : String) (t : ConflictType),
      ((∃ ts, (k, ts) ∈ maps.1 ∧ t ∈ ts) →
        ∃ ts', (k, ts') ∈ (rs.foldl (conflictMapsStep c) maps).1 ∧ t ∈ ts')
      ∧ ((∃ ts, (k, ts) ∈ maps.2 ∧ t ∈ ts) →
        ∃ ts', (k, ts') ∈ (rs.foldl (conflictMapsStep c) maps).2 ∧ t ∈ ts') := by
  intro rs
  induction rs with
  | nil => intro maps k t; exact ⟨fun h => h, fun h => h⟩
  | cons r rs ih =>
      intro maps k t
      rw [List.foldl_cons]
      constructor
      · intro h
        exact (ih (conflictMapsStep c maps r) k t).1
          (mapTypeAdd_preserve maps.1 r._id c.type k t h)
      · intro h
        exact (ih (conflictMapsStep c maps r) k t).2
          (mapTypeAdd_preserve maps.2 r.email c.type k t h)

theorem innerFold_establish (c : ConflictInfo) :
    ∀ (rs : List LeadRecord)
      (maps : List (String × List ConflictType) × List (String × List ConflictType))
      (r : LeadRecord), r ∈ rs →
      (∃ ts, (r._id, ts) ∈ (rs.foldl (conflictMapsStep c) maps).1 ∧ c.type ∈ ts)
      ∧ (∃ ts, (r.email, ts) ∈ (rs.foldl (conflictMapsStep c) maps).2 ∧ c.type ∈ ts) := by
  intro rs
  induction rs with
  | nil => intro maps r hr; simp at hr
  | cons x rs ih =>
      intro maps r hr
      rw [List.foldl_cons]
      rcases List.mem_cons.mp hr with rfl | hr
      · constructor
        · exact (innerFold_preserve c rs (conflictMapsStep c maps r) r._id c.type).1
            (mapTypeAdd_establish maps.1 r._id c.type)
        · exact (innerFold_preserve c rs (conflictMapsStep c maps r) r.email c.type).2
            (mapTypeAdd_establish maps.2 r.email c.type)
      · exact ih (conflictMapsStep c maps x) r hr

theorem outerFold_preserve :
    ∀ (conflicts : List ConflictInfo)
      (maps : List (String × List ConflictType) × List (String × List ConflictType))
      (k : String) (t : ConflictType),
      ((∃ ts, (k, ts) ∈ maps.1 ∧ t ∈ ts) →
        ∃ ts', (k, ts') ∈ (conflicts.foldl (fun maps c => c.records.foldl (conflictMapsStep c) maps) maps).1 ∧ t ∈ ts')
      ∧ ((∃ ts, (k, ts) ∈ maps.2 ∧ t ∈ ts) →
        ∃ ts', (k, ts') ∈ (conflicts.foldl (fun maps c => c.records.foldl (conflictMapsStep c) maps) maps).2 ∧ t ∈ ts') := by
  intro conflicts
  induction conflicts with
  | nil => intro maps k t; exact ⟨fun h => h, fun h => h⟩
  | cons c conflicts ih =>
      intro maps k t
      rw [List.foldl_cons]
      constructor
      · intro h
        exact (ih _ k t).1 ((innerFold_preserve c c.records maps k t).1 h)
      · intro h
        exact (ih _ k t).2 ((innerFold_preserve c c.records maps k t).2 h)

theorem rc_provenance :
    ∀ (conflicts : List ConflictInfo)
      (maps : List (String × List ConflictType) × List (String × List ConflictType)),
      ∀ kb ∈ (conflicts.foldl (fun maps c => c.records.foldl (conflictMapsStep c) maps) maps).1,
        ∀ t ∈ kb.2,
          (∃ kb' ∈ maps.1, kb'.1 = kb.1 ∧ t ∈ kb'.2)
          ∨ ∃ c ∈ conflicts, c.type = t ∧ ∃ r ∈ c.records, r._id = kb.1 := by
  intro conflicts
  induction conflicts with
  | nil => intro maps kb hkb t ht; exact Or.inl ⟨kb, hkb, rfl, ht⟩
  | cons c conflicts ih =>
      intro maps kb hkb t ht
      rw [List.foldl_cons] at hkb
      rcases ih _ kb hkb t ht with ⟨kb', hkb', hkey, ht'⟩ | ⟨c', hc', htype, hr⟩
      · rcases innerFold_cases c c.records maps kb' hkb' t ht'
            with ⟨kb'', hkb'', hkey'', ht''⟩ | ⟨htype, r, hr, hkey'⟩
        · exact Or.inl ⟨kb'', hkb'', hkey''.trans hkey, ht''⟩
        · exact Or.inr ⟨c, by simp, htype.symm, r, hr, hkey' ▸ hkey⟩
      · exact Or.inr ⟨c', by simp [hc'], htype, hr⟩

theorem maps_establish :
    ∀ (conflicts : List ConflictInfo)
      (maps : List (String × List ConflictType) × List (String × List ConflictType))
      (c : ConflictInfo), c ∈ conflicts →
      ∀ r ∈ c.records,
        (∃ ts, (r._id, ts) ∈ (conflicts.foldl (fun maps c => c.records.foldl (conflictMapsStep c) maps) maps).1 ∧ c.type ∈ ts)
        ∧ (∃ ts, (r.email, ts) ∈ (conflicts.foldl (fun maps c => c.records.foldl (conflictMapsStep c) maps) maps).2 ∧ c.type ∈ ts) := by
  intro conflicts
  induction conflicts with
  | nil => intro maps c hc; simp at hc
  | cons c0 conflicts ih =>
      intro maps c hc r hr
      rw [List.foldl_cons]
      rcases List.mem_cons.mp hc with rfl | hc
      · constructor
        · exact (outerFold_preserve conflicts _ r._id c.type).1
            ((innerFold_establish c c.records maps r hr).1)
        · exact (outerFold_preserve conflicts _ r.email c.type).2
            ((innerFold_establish c c.records maps r hr).2)
      · exact ih _ c hc r hr

theorem indexAdd_ne_nil (m : List (String × List LeadRecord)) (k : String)
    (r : LeadRecord) : indexAdd m k r ≠ [] := by
  cases m with
  | nil => simp [indexAdd]
  | cons kv m =>
      cases kv with
      | mk k' v' =>
          unfold indexAdd
          by_cases hk : k' = k
          · simp [hk]
          · simp [hk]

theorem crossGroups_step_ne_nil (records : List LeadRecord)
    (emailConflicts : List (String × List ConflictType))
    (groups : List (String × List LeadRecord)) (kv : String × List ConflictType)
    (h : groups ≠ []) :
    (if ConflictType.id_conflict ∈ kv.2 then
        match records.find? (fun r => r._id == kv.1) with
        | some record =>
            if (emailConflicts.lookup record.email).isSome then
              indexAdd groups ("cross_" ++ kv.1 ++ "_" ++ record.email) record
            else groups
        | none => groups
      else groups) ≠ [] := by
  by_cases hid : ConflictType.id_conflict ∈ kv.2
  · rw [if_pos hid]
    cases records.find? (fun r => r._id == kv.1) with
    | some record =>
        by_cases hlk : (emailConflicts.lookup record.email).isSome
        · simp only [hlk, if_true]
          exact indexAdd_ne_nil _ _ _
        · simp only [hlk, if_false]
          exact h
    | none => exact h
  · rw [if_neg hid]; exact h

theorem buildCrossGroups_ne_nil_source (records : List LeadRecord)
    (emailConflicts : List (String × List ConflictType)) :
    ∀ (rc : List (String × List ConflictType)),
      buildCrossGroups records rc emailConflicts ≠ [] →
      ∃ kv ∈ rc, ConflictType.id_conflict ∈ kv.2 := by
  have hgen : ∀ (rc : List (String × List ConflictType))
      (acc : List (String × List LeadRecord)),
      rc.foldl
        (fun groups kv =>
          if ConflictType.id_conflict ∈ kv.2 then
            match records.find? (fun r => r._id == kv.1) with
            | some record =>
                if (emailConflicts.lookup record.email).isSome then
                  indexAdd groups ("cross_" ++ kv.1 ++ "_" ++ record.email) record
                else groups
            | none => groups
          else groups)
        acc ≠ [] →
      acc ≠ [] ∨ ∃ kv ∈ rc, ConflictType.id_conflict ∈ kv.2 := by
    intro rc
    induction rc with
    | nil => intro acc h; exact Or.inl h
    | cons kv rc ih =>
        intro acc h
        rw [List.foldl_cons] at h
        by_cases hid : ConflictType.id_conflict ∈ kv.2
        · exact Or.inr ⟨kv, by simp, hid⟩
        · rw [if_neg hid] at h
          rcases ih acc h with h | ⟨kv', hkv', hid'⟩
          · exact Or.inl h
          · exact Or.inr ⟨kv', by simp [hkv'], hid'⟩
  intro rc h
  rcases hgen rc [] h with h | h
  · exact absurd rfl h
  · exact h

theorem buildCrossGroups_ne_nil_of_entry (records : List LeadRecord)
    (emailConflicts : List (String × List ConflictType))
    (rc : List (String × List ConflictType)) (kv : String × List ConflictType)
    (hkv : kv ∈ rc) (hid : ConflictType.id_conflict ∈ kv.2)
    (r0 : LeadRecord) (hfind : records.find? (fun r => r._id == kv.1) = some r0)
    (hlk : (emailConflicts.lookup r0.email).isSome) :
    buildCrossGroups records rc emailConflicts ≠ [] := by
  have hstep : ∀ (acc : List (String × List LeadRecord))
      (kv' : String × List ConflictType), acc ≠ [] →
      (if ConflictType.id_conflict ∈ kv'.2 then
          match records.find? (fun r => r._id == kv'.1) with
          | some record =>
              if (emailConflicts.lookup record.email).isSome then
                indexAdd acc ("cross_" ++ kv'.1 ++ "_" ++ record.email) record
              else acc
          | none => acc
        else acc) ≠ [] := fun acc kv' h =>
    crossGroups_step_ne_nil records emailConflicts acc kv' h
  have hfoldpres : ∀ (l : List (String × List ConflictType))
      (acc : List (String × List LeadRecord)), acc ≠ [] →
      l.foldl
        (fun groups kv =>
          if ConflictType.id_conflict ∈ kv.2 then
            match records.find? (fun r => r._id == kv.1) with
            | some record =>
                if (emailConflicts.lookup record.email).isSome then
                  indexAdd groups ("cross_" ++ kv.1 ++ "_" ++ record.email) record
                else groups
            | none => groups
          else groups)
        acc ≠ [] := by
    intro l
    induction l with
    | nil => intro acc h; exact h
    | cons kv' l ih => intro acc h; rw [List.foldl_cons]; exact ih _ (hstep acc kv' h)
  have hgen : ∀ (l : List (String × List ConflictType))
      (acc : List (String × List LeadRecord)), kv ∈ l →
      l.foldl
        (fun groups kv =>
          if ConflictType.id_conflict ∈ kv.2 then
            match records.find? (fun r => r._id == kv.1) with
            | some record =>
                if (emailConflicts.lookup record.email).isSome then
                  indexAdd groups ("cross_" ++ kv.1 ++ "_" ++ record.email) record
                else groups
            | none => groups
          else groups)
        acc ≠ [] := by
    intro l
    induction l with
    | nil => intro acc h; simp at h
    | cons kv' l ih =>
        intro acc h
        rw [List.foldl_cons]
        rcases List.mem_cons.mp h with rfl | h
        · apply hfoldpres
          rw [if_pos hid, hfind]
          simp only [hlk, if_true]
          exact indexAdd_ne_nil _ _ _
        · exact ih _ h
  exact hgen rc [] hkv

theorem crossInfos_types (records : List LeadRecord) :
    ∀ (groups : List (String × List LeadRecord)),
      ∀ c ∈ crossInfos records groups, c.type = ConflictType.cross_conflict := by
  have hgen : ∀ (gs : List (String × List LeadRecord)) (acc : List ConflictInfo),
      (∀ c ∈ acc, c.type = ConflictType.cross_conflict) →
      ∀ c ∈ gs.foldl
          (fun acc kv =>
            match kv.2 with
            | [] => acc
            | primary :: _ =>
                let sameIdRecords := records.filter (fun r => r._id = primary._id)
                let sameEmailRecords := records.filter (fun r => r.email = primary.email)
                let allRelated := dedupKeepFirst (sameIdRecords ++ sameEmailRecords)
                acc ++ [{ type := ConflictType.cross_conflict
                          records := allRelated
                          conflictingIds := [primary._id]
                          conflictingEmails := some [primary.email]
                          details := some
                            { recordId := primary._id, email := primary.email
                              sameIdRecords := sameIdRecords.map (fun r => (r._id, r.email, r.entryDate))
                              sameEmailRecords := sameEmailRecords.map (fun r => (r._id, r.email, r.entryDate)) } }])
          acc,
        c.type = ConflictType.cross_conflict := by
    intro gs
    induction gs with
    | nil => intro acc hacc c hc; exact hacc c hc
    | cons kv gs ih =>
        intro acc hacc c hc
        rw [List.foldl_cons] at hc
        cases hkv : kv.2 with
        | nil =>
            rw [hkv] at hc
            exact ih acc hacc c hc
        | cons primary rest =>
            rw [hkv] at hc
            refine ih _ ?_ c hc
            intro c' hc'
            rcases List.mem_append.mp hc' with hc' | hc'
            · exact hacc c' hc'
            · simp only [List.mem_singleton] at hc'
              subst hc'
              rfl
  intro groups c hc
  exact hgen groups [] (by simp) c hc

theorem crossInfos_exists (records : List LeadRecord) :
    ∀ (groups : List (String × List LeadRecord)),
      (∃ kv ∈ groups, kv.2 ≠ []) →
      ∃ c ∈ crossInfos records groups, c.type = ConflictType.cross_conflict := by
  have hgen : ∀ (gs : List (String × List LeadRecord)) (acc : List ConflictInfo),
      ((∃ kv ∈ gs, kv.2 ≠ []) ∨ ∃ c ∈ acc, c.type = ConflictType.cross_conflict) →
      ∃ c ∈ gs.foldl
          (fun acc kv =>
            match kv.2 with
            | [] => acc
            | primary :: _ =>
                let sameIdRecords := records.filter (fun r => r._id = primary._id)
                let sameEmailRecords := records.filter (fun r => r.email = primary.email)
                let allRelated := dedupKeepFirst (sameIdRecords ++ sameEmailRecords)
                acc ++ [{ type := ConflictType.cross_conflict
                          records := allRelated
                          conflictingIds := [primary._id]
                          conflictingEmails := some [primary.email]
                          details := some
                            { recordId := primary._id, email := primary.email
                              sameIdRecords := sameIdRecords.map (fun r => (r._id, r.email, r.entryDate))
                              sameEmailRecords := sameEmailRecords.map (fun r => (r._id, r.email, r.entryDate)) } }])
          acc,
        c.type = ConflictType.cross_conflict := by
    intro gs
    induction gs with
    | nil =>
        intro acc hacc
        rcases hacc with ⟨kv, hkv, _⟩ | h
        · simp at hkv
        · exact h
    | cons kv gs ih =>
        intro acc hacc
        rw [List.foldl_cons]
        cases hkv2 : kv.2 with
        | nil =>
            refine ih acc ?_
            rcases hacc with ⟨kv', hkv', hne⟩ | h
            · rcases List.mem_cons.mp hkv' with rfl | hkv'
              · exact absurd hkv2 hne
              · exact Or.inl ⟨kv', hkv', hne⟩
            · exact Or.inr h
        | cons primary rest =>
            refine ih _ (Or.inr ?_)
            exact ⟨_, List.mem_append_right _ (List.mem_singleton_self _), rfl⟩
  intro groups h
  exact hgen groups [] (Or.inl h)

theorem buildCrossGroups_buckets_ne (records : List LeadRecord)
    (emailConflicts : List (String × List ConflictType))
    (rc : List (String × List ConflictType)) :
    ∀ kv ∈ buildCrossGroups records rc emailConflicts, kv.2 ≠ [] := by
  have hadd : ∀ (m : List (String × List LeadRecord)) (k : String) (r : LeadRecord),
      (∀ kv ∈ m, kv.2 ≠ []) → ∀ kv ∈ indexAdd m k r, kv.2 ≠ [] := by
    intro m
    induction m with
    | nil =>
        intro k r _ kv hkv
        simp only [indexAdd, List.mem_singleton] at hkv
        subst hkv
        simp
    | cons kv' m ih =>
        intro k r hm kv hkv
        cases kv' with
        | mk k' v' =>
            unfold indexAdd at hkv
            by_cases hk : k' = k
            · rw [if_pos hk] at hkv
              rcases List.mem_cons.mp hkv with rfl | hkv
              · simp
              · exact hm kv (by simp [hkv])
            · rw [if_neg hk] at hkv
              rcases List.mem_cons.mp hkv with rfl | hkv
              · exact hm (k', v') (by simp)
              · exact ih k r (fun kv2 h2 => hm kv2 (by simp [h2])) kv hkv
  have hgen : ∀ (l : List (String × List ConflictType))
      (acc : List (String × List LeadRecord)),
      (∀ kv ∈ acc, kv.2 ≠ []) →
      ∀ kv ∈ l.foldl
          (fun groups kv =>
            if ConflictType.id_conflict ∈ kv.2 then
              match records.find? (fun r => r._id == kv.1) with
              | some record =>
                  if (emailConflicts.lookup record.email).isSome then
                    indexAdd groups ("cross_" ++ kv.1 ++ "_" ++ record.email) record
                  else groups
              | none => groups
            else groups)
          acc,
        kv.2 ≠ [] := by
    intro l
    induction l with
    | nil => intro acc hacc kv hkv; exact hacc kv hkv
    | cons kv0 l ih =>
        intro acc hacc kv hkv
        rw [List.foldl_cons] at hkv
        refine ih _ ?_ kv hkv
        by_cases hid : ConflictType.id_conflict ∈ kv0.2
        · rw [if_pos hid]
          cases records.find? (fun r => r._id == kv0.1) with
          | some record =>
              by_cases hlk : (emailConflicts.lookup record.email).isSome
              · simp only [hlk, if_true]
                exact hadd acc _ record hacc
              · simp only [hlk, if_false]
                exact hacc
          | none => exact hacc
        · rw [if_neg hid]; exact hacc
  intro kv hkv
  exact hgen rc [] (by simp) kv hkv

theorem tagFrom_map_id : ∀ (i : Nat) (l : List LeadRecordData),
    (tagFrom i l).map (fun r => r._id) = l.map (fun d => d._id) := by
  intro i l
  induction l generalizing i with
  | nil => rfl
  | cons d l ih => simp [tagFrom, ih]

theorem not_nodup_map_id_iff (l : List LeadRecord) :
    ¬ (l.map (fun r => r._id)).Nodup
      ↔ ∃ k, 1 < (l.filter (fun r => r._id = k)).length := by
  have hfun : ∀ k : String,
      ((fun x => x == k) ∘ (fun r : LeadRecord => r._id))
        = fun r : LeadRecord => decide (r._id = k) := by
    intro k
    funext r
    by_cases h : r._id = k <;> simp [Function.comp, h]
  constructor
  · intro h
    rw [List.nodup_iff_count_le_one] at h
    push_neg at h
    obtain ⟨k, hk⟩ := h
    refine ⟨k, ?_⟩
    rw [List.count_eq_countP, List.countP_map, hfun k,
      List.countP_eq_length_filter] at hk
    omega
  · rintro ⟨k, hk⟩
    rw [List.nodup_iff_count_le_one]
    push_neg
    refine ⟨k, ?_⟩
    rw [List.count_eq_countP, List.countP_map, hfun k,
      List.countP_eq_length_filter]
    omega

theorem detectAllConflictsCore_eq (rs : List LeadRecord) (cs : List ConflictInfo) :
    detectAllConflictsCore rs cs
      = crossInfos rs
          (buildCrossGroups rs (buildConflictMaps cs).1 (buildConflictMaps cs).2) := rfl

/-- C4 amended.  `detectAllConflicts()` reports a `cross_conflict` exactly
when some `_id` value is duplicated: every duplicated id produces a cross
entry (the first record of a duplicated id belongs to an id-conflict group,
so its email is always registered in the `emailConflicts` map), while pure
email collisions never do. -/
theorem cross_conflict_iff_dup_id (input : List LeadRecordData) :
    (∃ c ∈ detectPipeline input, c.type = ConflictType.cross_conflict)
      ↔ ¬ (input.map (fun d => d._id)).Nodup := by
  have hpipe : detectPipeline input = detectAllConflictsR (tagRecords input) := rfl
  have hmapid : (tagRecords input).map (fun r => r._id) = input.map (fun d => d._id) :=
    tagFrom_map_id 0 input
  rw [hpipe, ← hmapid]
  have hsplit : detectAllConflictsR (tagRecords input)
      = detectConflictsR (tagRecords input)
        ++ detectAllConflictsCore (tagRecords input) (detectConflictsR (tagRecords input)) := rfl
  constructor
  · rintro ⟨c, hc, htype⟩
    rw [hsplit] at hc
    rcases List.mem_append.mp hc with hc | hc
    · rcases detectConflictsR_types (tagRecords input) c hc with h | h <;>
        rw [h] at htype <;> exact absurd htype (by simp)
    · rw [detectAllConflictsCore_eq] at hc
      have hgne : buildCrossGroups (tagRecords input)
          (buildConflictMaps (detectConflictsR (tagRecords input))).1
          (buildConflictMaps (detectConflictsR (tagRecords input))).2 ≠ [] := by
        intro hnil
        rw [hnil] at hc
        exact absurd hc (by simp [crossInfos])
      obtain ⟨kv, hkv, hid⟩ :=
        buildCrossGroups_ne_nil_source (tagRecords input)
          (buildConflictMaps (detectConflictsR (tagRecords input))).2
          (buildConflictMaps (detectConflictsR (tagRecords input))).1 hgne
      rcases rc_provenance (detectConflictsR (tagRecords input)) ([], []) kv
          (by simpa [buildConflictMaps] using hkv) ConflictType.id_conflict hid
        with ⟨kb', hkb', _, _⟩ | ⟨c', hc', htype', r, hr, hkey⟩
      · simp at hkb'
      · obtain ⟨k, hrec, hlen⟩ :=
          detectConflictsR_id_records (tagRecords input) c' hc' htype'
        rw [not_nodup_map_id_iff]
        exact ⟨k, by rw [hrec] at hlen; exact hlen⟩
  · intro hdup
    rw [not_nodup_map_id_iff] at hdup
    obtain ⟨k, hk⟩ := hdup
    have hex : ∃ r ∈ tagRecords input, r._id = k := by
      cases hfe : (tagRecords input).filter (fun r => r._id = k) with
      | nil => rw [hfe] at hk; simp at hk
      | cons a t =>
          have ha : a ∈ (tagRecords input).filter (fun r => r._id = k) := by
            rw [hfe]; simp
          exact ⟨a, List.mem_of_mem_filter ha, by
            have := List.of_mem_filter ha
            simpa using this⟩
    obtain ⟨r1, hr1, hkr1⟩ := hex
    obtain ⟨b, hb⟩ := buildIndex_bucket_exists (fun r => r._id) (tagRecords input) r1 hr1
    rw [hkr1] at hb
    have hbeq2 := buildIndex_bucket_eq (fun r => r._id) (tagRecords input) k b hb
    have hblen : b.length > 1 := by rw [hbeq2]; exact hk
    have hcid := detectConflictsR_id_mem (tagRecords input) k b hb hblen
    have hr1b : r1 ∈ b := by
      rw [hbeq2]
      exact List.mem_filter.mpr ⟨hr1, by simp [hkr1]⟩
    obtain ⟨⟨ts, hts, htsid⟩, _⟩ :=
      maps_establish (detectConflictsR (tagRecords input)) ([], []) _ hcid r1 hr1b
    have hfindsome : ((tagRecords input).find? (fun r => r._id == k)).isSome :=
      List.find?_isSome.mpr ⟨r1, hr1, by simp [hkr1]⟩
    obtain ⟨r0, hfind⟩ := Option.isSome_iff_exists.mp hfindsome
    have hr0mem : r0 ∈ tagRecords input := List.mem_of_find?_eq_some hfind
    have hr0id : r0._id = k := by
      have := List.find?_some hfind
      simpa using this
    have hr0b : r0 ∈ b := by
      rw [hbeq2]
      exact List.mem_filter.mpr ⟨hr0mem, by simp [hr0id]⟩
    obtain ⟨_, ⟨ts2, hts2, _⟩⟩ :=
      maps_establish (detectConflictsR (tagRecords input)) ([], []) _ hcid r0 hr0b
    have hlk : (((buildConflictMaps (detectConflictsR (tagRecords input))).2).lookup
        r0.email).isSome :=
      lookup_isSome_of_mem _ _ ts2 (by simpa [buildConflictMaps] using hts2)
    have hgne := buildCrossGroups_ne_nil_of_entry (tagRecords input)
      (buildConflictMaps (detectConflictsR (tagRecords input))).2
      (buildConflictMaps (detectConflictsR (tagRecords input))).1
      (r1._id, ts) (by simpa [buildConflictMaps] using hts)
      (by simpa using htsid) r0 (by rw [hkr1]; exact hfind) hlk
    have hbuck := buildCrossGroups_buckets_ne (tagRecords input)
      (buildConflictMaps (detectConflictsR (tagRecords input))).2
      (buildConflictMaps (detectConflictsR (tagRecords input))).1
    obtain ⟨g0, gs0, hg⟩ := List.exists_cons_of_ne_nil hgne
    have hkv0 : ∃ kv ∈ buildCrossGroups (tagRecords input)
        (buildConflictMaps (detectConflictsR (tagRecords input))).1
        (buildConflictMaps (detectConflictsR (tagRecords input))).2, kv.2 ≠ [] := by
      refine ⟨g0, by rw [hg]; simp, hbuck g0 (by rw [hg]; simp)⟩
    obtain ⟨cinfo, hcinfo, hctype⟩ := crossInfos_exists (tagRecords input) _ hkv0
    refine ⟨cinfo, ?_, hctype⟩
    rw [hsplit]
    refine List.mem_append_right _ ?_
    rw [detectAllConflictsCore_eq]
    exact hcinfo
